import Mathlib

/-!
# azure-service-bus-push: a verification development of `main.go`

Go strings and file contents are modelled as sequences of Unicode code points
(UTF-8 text): Lean `String`s, and `List Char` inside the JSON functions.  A Go
`error` is modelled by its message; `nil` is `none`.  The standard library
functions the program calls (`strings`, `unicode`, `encoding/json`) and
`uuid.New` are modelled from their documented behaviour; what the outside
world answers (environment, file system, random source, Service Bus SDK) is a
parameter, `World`.
-/

namespace Push

/-! ## Go standard library: `strings` and `unicode` -/

/-- The byte test `'A' <= c && c <= 'Z'` of `strings.ToLower` and `unicode.ToLower`. -/
def isASCIIUpper (c : Char) : Bool := decide (65 ≤ c.toNat) && decide (c.toNat ≤ 90)

/-- The ASCII step `c += 'a' - 'A'` for an upper-case letter. -/
def asciiToLower (c : Char) : Char :=
  if isASCIIUpper c then Char.ofNat (c.toNat + 32) else c

/-- Go `unicode.ToLower`: ASCII runes are handled inline, every other rune is
looked up in the Unicode case tables, which are the parameter `caseTable`. -/
def unicodeToLower (caseTable : Char → Char) (r : Char) : Char :=
  if r.toNat ≤ 127 then asciiToLower r else caseTable r

/-- Go `strings.ToLower`: an ASCII-only string without upper-case letters is
returned as is, an ASCII-only string has its letters `A`..`Z` lowered, and any
other string is mapped rune by rune through `unicode.ToLower`. -/
def ToLower (caseTable : Char → Char) (s : String) : String :=
  if s.data.all (fun c => decide (c.toNat < 128)) then
    if !(s.data.any isASCIIUpper) then s else ⟨s.data.map asciiToLower⟩
  else ⟨s.data.map (unicodeToLower caseTable)⟩

/-- Go `unicode.IsSpace`: the Latin-1 white space characters and, beyond
Latin-1, the code points with the Unicode `White_Space` property. -/
def isSpace (r : Char) : Bool :=
  let n := r.toNat
  if n ≤ 255 then
    n == 9 || n == 10 || n == 11 || n == 12 || n == 13 || n == 32 || n == 0x85 || n == 0xA0
  else
    n == 0x1680 || (decide (0x2000 ≤ n) && decide (n ≤ 0x200A)) || n == 0x2028 || n == 0x2029 ||
      n == 0x202F || n == 0x205F || n == 0x3000

/-- Go `strings.TrimSpace`: the string without its leading and trailing white
space, as defined by Unicode. -/
def TrimSpace (s : String) : String :=
  ⟨(s.data.dropWhile isSpace).rdropWhile isSpace⟩

/-! ## `main.go`: configuration and argument validation -/

/-- The `Config` struct of `main.go` (the field `Type` is written `Type_`). -/
structure Config where
  Queue : String
  Topic : String
  Destination : String
  Type_ : String
  Payload : String
  CorrelationID : String
deriving DecidableEq, Repr

def errMissingPayload : String := "parâmetro obrigatório ausente: --payload"
def errMixedModes : String := "não misture --destination/--type com --queue/--topic"
def errUnifiedBoth : String := "para o modo unificado informe ambos: --destination e --type"
def errBadType : String := "--type deve ser 'queue' ou 'topic'"
def errNoDestination : String := "informe --queue ou --topic (apenas um)"
def errOneDestination : String := "use apenas um destino: --queue ou --topic"

/-- The function `validateArgs` of `main.go`; `none` is the `nil` error. -/
def validateArgs (caseTable : Char → Char) (config : Config) : Option String :=
  if config.Payload = "" then
    some errMissingPayload
  else
    let usingUnified := config.Destination ≠ "" ∨ config.Type_ ≠ ""
    let usingLegacy := config.Queue ≠ "" ∨ config.Topic ≠ ""
    if usingUnified ∧ usingLegacy then
      some errMixedModes
    else if usingUnified then
      if config.Destination = "" ∨ config.Type_ = "" then
        some errUnifiedBoth
      else
        let typeStr := ToLower caseTable config.Type_
        if typeStr ≠ "queue" ∧ typeStr ≠ "topic" then
          some errBadType
        else
          none
    else if config.Queue = "" ∧ config.Topic = "" then
      some errNoDestination
    else if config.Queue ≠ "" ∧ config.Topic ≠ "" then
      some errOneDestination
    else
      none

/-! ## `main.go`: the connection string -/

def errNoConnection : String :=
  "variável de ambiente SB_ENDPOINT (ou SB_CONNECTION_STRING) não encontrada. Configure no .env"

/-- The function `getConnectionString` of `main.go`; `getenv` is `os.Getenv`,
which yields the empty string for a variable that is not set. -/
def getConnectionString (getenv : String → String) : Except String String :=
  let conn := getenv "SB_CONNECTION_STRING"
  let conn := if conn = "" then getenv "SB_ENDPOINT" else conn
  if conn = "" ∨ TrimSpace conn = "" then
    .error errNoConnection
  else
    .ok (TrimSpace conn)

/-! ## Go standard library: `encoding/json`

`json.Unmarshal` into an `interface{}` and `json.Marshal` of the value it
produced.  Numbers are `float64`; parsing and printing them is the work of
`strconv`, taken here as a parameter (`NumCodec`).  The decoder is modelled in
two passes, a tokenizer and a parser over tokens.
-/

/-- The number conversions of `encoding/json` for the `float64` values that
sit behind `interface{}`: `parseFloat` is `strconv.ParseFloat(lit, 64)` on a
JSON number literal (`none` when it reports an error, as for a value out of
range), and `formatFloat` is the float encoder of `json.Marshal` (an error
for a value it refuses, as it does NaN and infinities). -/
structure NumCodec where
  F : Type
  parseFloat : List Char → Option F
  formatFloat : F → Except String (List Char)

/-- The generic value `json.Unmarshal` stores in an `interface{}`: `nil`,
`bool`, `float64`, `string`, `[]interface{}` or `map[string]interface{}`.  A
map is kept as the list of its entries in ascending key order, the order in
which `json.Marshal` writes them. -/
inductive JValue (F : Type) where
  | null
  | bool (b : Bool)
  | num (f : F)
  | str (s : List Char)
  | arr (xs : List (JValue F))
  | obj (m : List (List Char × JValue F))

/-- Go `strings.Compare(a, b) < 0`, the order `json.Marshal` sorts map keys by. -/
def keyLess : List Char → List Char → Bool
  | [], [] => false
  | [], _ :: _ => true
  | _ :: _, [] => false
  | a :: as, b :: bs => decide (a.toNat < b.toNat) || (a == b && keyLess as bs)

/-- The map store `m[key] = value`: a new key is added, an existing key has its
value replaced. -/
def mapInsert {V : Type} (k : List Char) (v : V) : List (List Char × V) → List (List Char × V)
  | [] => [(k, v)]
  | (k1, v1) :: rest =>
    if keyLess k k1 then (k, v) :: (k1, v1) :: rest
    else if k = k1 then (k, v) :: rest
    else (k1, v1) :: mapInsert k v rest

/-- The lexical tokens of a JSON text; a string token holds the decoded
string, a number token the literal as written. -/
inductive Token where
  | beginObject | endObject | beginArray | endArray | colon | comma
  | litTrue | litFalse | litNull
  | str (s : List Char)
  | num (lit : List Char)
deriving DecidableEq, Repr

/-- White space of the JSON scanner (`isSpace` of `scanner.go`). -/
def isJSONSpace (c : Char) : Bool := c == ' ' || c == '\t' || c == '\r' || c == '\n'

def isDigit (c : Char) : Bool := decide (48 ≤ c.toNat) && decide (c.toNat ≤ 57)

/-- The value of a hexadecimal digit, in either case (`getu4` of `decode.go`). -/
def hexVal (c : Char) : Option Nat :=
  let n := c.toNat
  if 48 ≤ n ∧ n ≤ 57 then some (n - 48)
  else if 97 ≤ n ∧ n ≤ 102 then some (n - 87)
  else if 65 ≤ n ∧ n ≤ 70 then some (n - 55)
  else none

/-- The four hexadecimal digits of a `\uXXXX` escape as a UTF-16 code unit. -/
def hex4 (a b c d : Char) : Option Nat :=
  match hexVal a, hexVal b, hexVal c, hexVal d with
  | some a, some b, some c, some d => some (a * 4096 + b * 256 + c * 16 + d)
  | _, _, _, _ => none

/-- Go `utf16.IsSurrogate`. -/
def isSurrogate (r : Nat) : Bool := decide (0xD800 ≤ r) && decide (r < 0xE000)

/-- Go `utf16.DecodeRune`: the code point of a surrogate pair, U+FFFD when the
two code units are not a valid pair. -/
def decodeSurrogates (r1 r2 : Nat) : Nat :=
  if 0xD800 ≤ r1 ∧ r1 < 0xDC00 ∧ 0xDC00 ≤ r2 ∧ r2 < 0xE000 then
    (r1 - 0xD800) * 1024 + (r2 - 0xDC00) + 0x10000
  else 0xFFFD

/-- The character a one-letter escape stands for. -/
def simpleEscape (e : Char) : Option Char :=
  if e = '\"' ∨ e = '\\' ∨ e = '/' then some e
  else if e = 'b' then some (Char.ofNat 8)
  else if e = 'f' then some (Char.ofNat 12)
  else if e = 'n' then some '\n'
  else if e = 'r' then some '\r'
  else if e = 't' then some '\t'
  else none

def prepend (c : Char) : Option (List Char × List Char) → Option (List Char × List Char)
  | some (s, rest) => some (c :: s, rest)
  | none => none

/-- The code unit of a `\uXXXX` escape at the head of the text (`getu4` of
`decode.go`). -/
def getu4 : List Char → Option Nat
  | b :: u :: h1 :: h2 :: h3 :: h4 :: _ => if b = '\\' ∧ u = 'u' then hex4 h1 h2 h3 h4 else none
  | _ => none

/-- The escape that follows a backslash: the character it stands for and the
number of characters it takes after the backslash.  A `\u` escape that is
half of an invalid surrogate pair decodes to U+FFFD and the escape after it
is read again (`unquote` of `decode.go`). -/
def scanEscape : List Char → Option (Char × Nat)
  | [] => none
  | e :: rest1 =>
    if e = 'u' then
      match rest1 with
      | h1 :: h2 :: h3 :: h4 :: rest2 =>
        match hex4 h1 h2 h3 h4 with
        | none => none
        | some rr =>
          if isSurrogate rr then
            match getu4 rest2 with
            | some rr1 =>
              if decodeSurrogates rr rr1 ≠ 0xFFFD then
                some (Char.ofNat (decodeSurrogates rr rr1), 11)
              else some (Char.ofNat 0xFFFD, 5)
            | none => some (Char.ofNat 0xFFFD, 5)
          else some (Char.ofNat rr, 5)
      | _ => none
    else
      match simpleEscape e with
      | some ch => some (ch, 1)
      | none => none

/-- The body of a string literal, read from just after the opening quote up to
the closing quote: the decoded string and the text that follows.  Control
characters and malformed escapes are errors.  Every step takes at least one
character, so a text of length `n` needs fuel `n`. -/
def scanString : Nat → List Char → Option (List Char × List Char)
  | 0, _ => none
  | _ + 1, [] => none
  | fuel + 1, c :: rest =>
    if c = '\"' then some ([], rest)
    else if c = '\\' then
      match scanEscape rest with
      | some (ch, k) => prepend ch (scanString fuel (rest.drop k))
      | none => none
    else if c.toNat < 32 then none
    else prepend c (scanString fuel rest)

/-- The exponent part of a number literal, if any. -/
def scanExponent (acc rest : List Char) : Option (List Char × List Char) :=
  match rest with
  | e :: r1 =>
    if e = 'e' ∨ e = 'E' then
      match r1 with
      | s :: r2 =>
        if s = '+' ∨ s = '-' then
          if (r2.takeWhile isDigit).isEmpty then none
          else some (acc ++ e :: s :: r2.takeWhile isDigit, r2.dropWhile isDigit)
        else if (r1.takeWhile isDigit).isEmpty then none
        else some (acc ++ e :: r1.takeWhile isDigit, r1.dropWhile isDigit)
      | [] => none
    else some (acc, rest)
  | [] => some (acc, [])

/-- The fraction part of a number literal, if any, then the exponent. -/
def scanFraction (acc rest : List Char) : Option (List Char × List Char) :=
  match rest with
  | d :: r1 =>
    if d = '.' then
      if (r1.takeWhile isDigit).isEmpty then none
      else scanExponent (acc ++ d :: r1.takeWhile isDigit) (r1.dropWhile isDigit)
    else scanExponent acc rest
  | [] => some (acc, [])

/-- The integer part of a number literal after the optional sign: a single
`0`, or a digit `1`..`9` followed by digits. -/
def scanInteger (acc rest : List Char) : Option (List Char × List Char) :=
  match rest with
  | d :: r1 =>
    if d = '0' then scanFraction (acc ++ [d]) r1
    else if isDigit d then
      scanFraction (acc ++ d :: r1.takeWhile isDigit) (r1.dropWhile isDigit)
    else none
  | [] => none

/-- A number literal at the head of the text: the literal, as long as the JSON
grammar lets it run, and the text that follows it. -/
def scanNumber (cs : List Char) : Option (List Char × List Char) :=
  match cs with
  | c :: rest => if c = '-' then scanInteger [c] rest else scanInteger [] cs
  | [] => none

def pushToken (t : Token) : Option (List Token) → Option (List Token)
  | some ts => some (t :: ts)
  | none => none

/-- The token that starts with the character `c`, which is not white space,
and the text after it; `none` when the JSON scanner rejects the text. -/
def nextToken (c : Char) (rest : List Char) : Option (Token × List Char) :=
  if c = '\x7b' then some (.beginObject, rest)
  else if c = '\x7d' then some (.endObject, rest)
  else if c = '[' then some (.beginArray, rest)
  else if c = ']' then some (.endArray, rest)
  else if c = ':' then some (.colon, rest)
  else if c = ',' then some (.comma, rest)
  else if c = '\"' then
    match scanString rest.length rest with
    | some (s, rest1) => some (.str s, rest1)
    | none => none
  else if c = 't' then
    match rest with
    | c1 :: c2 :: c3 :: rest1 =>
      if c1 = 'r' ∧ c2 = 'u' ∧ c3 = 'e' then some (.litTrue, rest1) else none
    | _ => none
  else if c = 'f' then
    match rest with
    | c1 :: c2 :: c3 :: c4 :: rest1 =>
      if c1 = 'a' ∧ c2 = 'l' ∧ c3 = 's' ∧ c4 = 'e' then some (.litFalse, rest1) else none
    | _ => none
  else if c = 'n' then
    match rest with
    | c1 :: c2 :: c3 :: rest1 =>
      if c1 = 'u' ∧ c2 = 'l' ∧ c3 = 'l' then some (.litNull, rest1) else none
    | _ => none
  else
    match scanNumber (c :: rest) with
    | some (lit, rest1) => some (.num lit, rest1)
    | none => none

/-- The tokens of a JSON text, `none` when the text has a character or a
literal the JSON scanner rejects.  Every step takes at least one character,
so a text of length `n` needs fuel `n`. -/
def tokenize : Nat → List Char → Option (List Token)
  | _, [] => some []
  | 0, _ :: _ => none
  | fuel + 1, c :: rest =>
    if isJSONSpace c then tokenize fuel rest
    else
      match nextToken c rest with
      | some (t, rest1) => pushToken t (tokenize fuel rest1)
      | none => none

/-- The nesting limit of the JSON scanner (`maxNestingDepth` of `scanner.go`). -/
def maxNestingDepth : Nat := 10000

mutual
/-- One JSON value at the head of the tokens, at nesting depth `depth`: the
value and the tokens that follow it. -/
def parseValue (codec : NumCodec) :
    Nat → Nat → List Token → Option (JValue codec.F × List Token)
  | 0, _, _ => none
  | _ + 1, _, [] => none
  | fuel + 1, depth, t :: ts =>
    match t with
    | .litNull => some (.null, ts)
    | .litTrue => some (.bool true, ts)
    | .litFalse => some (.bool false, ts)
    | .str s => some (.str s, ts)
    | .num lit =>
      match codec.parseFloat lit with
      | some f => some (.num f, ts)
      | none => none
    | .beginArray =>
      if depth + 1 ≤ maxNestingDepth then
        match ts with
        | .endArray :: ts1 => some (.arr [], ts1)
        | _ =>
          match parseElements codec fuel (depth + 1) ts with
          | some (vs, ts1) => some (.arr vs, ts1)
          | none => none
      else none
    | .beginObject =>
      if depth + 1 ≤ maxNestingDepth then
        match ts with
        | .endObject :: ts1 => some (.obj [], ts1)
        | _ =>
          match parseMembers codec fuel (depth + 1) [] ts with
          | some (m, ts1) => some (.obj m, ts1)
          | none => none
      else none
    | _ => none
/-- The elements of a non-empty array up to and including its closing bracket. -/
def parseElements (codec : NumCodec) :
    Nat → Nat → List Token → Option (List (JValue codec.F) × List Token)
  | 0, _, _ => none
  | fuel + 1, depth, ts =>
    match parseValue codec fuel depth ts with
    | some (v, .comma :: ts1) =>
      match parseElements codec fuel depth ts1 with
      | some (vs, ts2) => some (v :: vs, ts2)
      | none => none
    | some (v, .endArray :: ts1) => some ([v], ts1)
    | _ => none
/-- The members of a non-empty object up to and including its closing brace,
stored one by one into the map `acc`. -/
def parseMembers (codec : NumCodec) :
    Nat → Nat → List (List Char × JValue codec.F) → List Token →
      Option (List (List Char × JValue codec.F) × List Token)
  | 0, _, _, _ => none
  | fuel + 1, depth, acc, ts =>
    match ts with
    | .str k :: .colon :: ts1 =>
      match parseValue codec fuel depth ts1 with
      | some (v, .comma :: ts2) => parseMembers codec fuel depth (mapInsert k v acc) ts2
      | some (v, .endObject :: ts2) => some (mapInsert k v acc, ts2)
      | _ => none
    | _ => none
end

/-- Go `json.Unmarshal(data, &v)` for `v` an `interface{}`: the value of the
text, `none` for an error. -/
def jsonUnmarshal (codec : NumCodec) (data : List Char) : Option (JValue codec.F) :=
  match tokenize data.length data with
  | some toks =>
    match parseValue codec (toks.length + 1) 0 toks with
    | some (v, []) => some v
    | _ => none
  | none => none

/-- A hexadecimal digit in lower case (`hex` of `encode.go`). -/
def hexDigit (n : Nat) : Char := if n < 10 then Char.ofNat (48 + n) else Char.ofNat (87 + n)

/-- The characters `json.Marshal` writes unescaped when it escapes HTML
(`htmlSafeSet` of `tables.go`). -/
def htmlSafe (c : Char) : Bool :=
  decide (32 ≤ c.toNat) && decide (c.toNat < 128) &&
    !(c == '\"' || c == '&' || c == '<' || c == '>' || c == '\\')

/-- One character of a string as `json.Marshal` writes it (`appendString` of
`encode.go` with HTML escaping on). -/
def escapeChar (c : Char) : List Char :=
  let n := c.toNat
  if n < 128 then
    if htmlSafe c then [c]
    else if c = '\\' ∨ c = '\"' then ['\\', c]
    else if n = 8 then ['\\', 'b']
    else if n = 12 then ['\\', 'f']
    else if n = 10 then ['\\', 'n']
    else if n = 13 then ['\\', 'r']
    else if n = 9 then ['\\', 't']
    else ['\\', 'u', '0', '0', hexDigit (n / 16), hexDigit (n % 16)]
  else if n = 0x2028 ∨ n = 0x2029 then ['\\', 'u', '2', '0', '2', hexDigit (n % 16)]
  else [c]

/-- A string as `json.Marshal` writes it, quotes included. -/
def quoteString (s : List Char) : List Char := '\"' :: (s.flatMap escapeChar ++ ['\"'])

mutual
/-- Go `json.Marshal` of a generic value: the compact JSON text, or the error
of a number that cannot be written. -/
def serialize (codec : NumCodec) : JValue codec.F → Except String (List Char)
  | .null => .ok ['n', 'u', 'l', 'l']
  | .bool true => .ok ['t', 'r', 'u', 'e']
  | .bool false => .ok ['f', 'a', 'l', 's', 'e']
  | .num f => codec.formatFloat f
  | .str s => .ok (quoteString s)
  | .arr xs =>
    match serializeElements codec xs with
    | .ok body => .ok ('[' :: (body ++ [']']))
    | .error e => .error e
  | .obj m =>
    match serializeMembers codec m with
    | .ok body => .ok ('\x7b' :: (body ++ ['\x7d']))
    | .error e => .error e
/-- The elements of an array, separated by commas. -/
def serializeElements (codec : NumCodec) : List (JValue codec.F) → Except String (List Char)
  | [] => .ok []
  | [v] => serialize codec v
  | v :: w :: rest =>
    match serialize codec v with
    | .ok a =>
      match serializeElements codec (w :: rest) with
      | .ok b => .ok (a ++ ',' :: b)
      | .error e => .error e
    | .error e => .error e
/-- The entries of a map, each `"key":value`, separated by commas. -/
def serializeMembers (codec : NumCodec) :
    List (List Char × JValue codec.F) → Except String (List Char)
  | [] => .ok []
  | [(k, v)] =>
    match serialize codec v with
    | .ok a => .ok (quoteString k ++ ':' :: a)
    | .error e => .error e
  | (k, v) :: e :: rest =>
    match serialize codec v with
    | .ok a =>
      match serializeMembers codec (e :: rest) with
      | .ok b => .ok (quoteString k ++ ':' :: (a ++ ',' :: b))
      | .error err => .error err
    | .error err => .error err
end

/-- Go `json.Marshal(v)`. -/
def jsonMarshal (codec : NumCodec) (v : JValue codec.F) : Except String (List Char) :=
  serialize codec v

/-! ## `main.go`: the payload loader -/

/-- What the program asks of its surroundings: environment variables, the file
system, the random source of `uuid.New` and the Service Bus SDK.  Each field
is the answer the outside gives to the call named in its comment. -/
structure World where
  /-- `os.Getenv` -/
  getenv : String → String
  /-- `filepath.Abs` -/
  abs : String → Except String String
  /-- `os.Stat`, then `Mode().IsRegular()`; `none` is an error -/
  stat : String → Option Bool
  /-- `os.Open` succeeds -/
  openFile : String → Bool
  /-- `io.ReadAll`; `none` is an error -/
  readAll : String → Option String
  /-- the sixteen random bytes `uuid.New` draws -/
  random : Nat → Nat
  /-- `azservicebus.NewClientFromConnectionString`; `none` is success -/
  newClient : String → Option String
  /-- `client.NewSender`; `none` is success -/
  newSender : String → Option String
  /-- `sender.SendMessage`; `none` is success -/
  sendMessage : String → List Char → String → Option String

/-- The calls a run makes to the outside, in the order it makes them. -/
inductive Event where
  | getenv (name : String)
  | abs (path : String)
  | stat (path : String)
  | openFile (path : String)
  | readAll (path : String)
  | closeFile (path : String)
  | randomRead
  | newClient (connectionString : String)
  | closeClient
  | newSender (name : String)
  | closeSender
  | sendMessage (name : String) (body : List Char) (contentType : String) (correlationID : String)
  | print (line : String)
deriving DecidableEq, Repr

/-- The function `readAndValidateJSON` of `main.go`: the canonical bytes of
the payload file or an error, and the file-system calls made. -/
def readAndValidateJSON (codec : NumCodec) (w : World) (filePath : String) :
    Except String (List Char) × List Event :=
  match w.abs filePath with
  | .error err => (.error ("erro ao resolver caminho: " ++ err), [.abs filePath])
  | .ok resolved =>
    match w.stat resolved with
    | none => (.error ("arquivo não encontrado: " ++ resolved), [.abs filePath, .stat resolved])
    | some regular =>
      if !regular then
        (.error ("caminho não é um arquivo: " ++ resolved), [.abs filePath, .stat resolved])
      else if !w.openFile resolved then
        (.error ("falha ao ler o arquivo: " ++ resolved),
          [.abs filePath, .stat resolved, .openFile resolved])
      else
        let events : List Event :=
          [.abs filePath, .stat resolved, .openFile resolved, .readAll resolved,
            .closeFile resolved]
        match w.readAll resolved with
        | none => (.error ("falha ao ler o arquivo: " ++ resolved), events)
        | some content =>
          match jsonUnmarshal codec content.data with
          | none => (.error ("conteúdo não é um JSON válido: " ++ resolved), events)
          | some jsonData =>
            match jsonMarshal codec jsonData with
            | .error err => (.error ("erro ao compactar JSON: " ++ err), events)
            | .ok compacted => (.ok compacted, events)

/-! ## `main.go`: `runPush` -/

/-- The two hexadecimal digits of a byte. -/
def hexByte (b : Nat) : List Char := [hexDigit (b / 16), hexDigit (b % 16)]

/-- The call `uuid.New().String()`: sixteen random bytes with the version and
variant bits set (`uuid[6] = (uuid[6] & 0x0f) | 0x40`,
`uuid[8] = (uuid[8] & 0x3f) | 0x80`), written as
`xxxxxxxx-xxxx-xxxx-xxxx-xxxxxxxxxxxx`. -/
def uuidNewString (random : Nat → Nat) : String :=
  let b : Nat → Nat := fun i => random i % 256
  ⟨hexByte (b 0) ++ hexByte (b 1) ++ hexByte (b 2) ++ hexByte (b 3) ++ ['-'] ++
    hexByte (b 4) ++ hexByte (b 5) ++ ['-'] ++
    hexByte (b 6 % 16 + 64) ++ hexByte (b 7) ++ ['-'] ++
    hexByte (b 8 % 64 + 128) ++ hexByte (b 9) ++ ['-'] ++
    hexByte (b 10) ++ hexByte (b 11) ++ hexByte (b 12) ++ hexByte (b 13) ++
    hexByte (b 14) ++ hexByte (b 15)⟩

/-- Lines 161-164 of `runPush`: the trimmed `--correlation-id`, or a new UUID
when that is empty. -/
def resolveCorrelationID (w : World) (config : Config) : String :=
  let correlationID := TrimSpace config.CorrelationID
  if correlationID = "" then uuidNewString w.random else correlationID

/-- Lines 172-190 of `runPush`: the destination name the sender is opened on
and the kind label printed with it. -/
def resolveDestination (caseTable : Char → Char) (config : Config) : String × String :=
  if config.Destination ≠ "" then
    let finalName := TrimSpace config.Destination
    let typeStr := ToLower caseTable config.Type_
    if typeStr = "queue" then (finalName, "fila") else (finalName, "tópico")
  else if config.Queue ≠ "" then
    (TrimSpace config.Queue, "fila")
  else
    (TrimSpace config.Topic, "tópico")

/-- The calls `getConnectionString` makes. -/
def getConnectionStringEvents (w : World) : List Event :=
  if w.getenv "SB_CONNECTION_STRING" = "" then
    [.getenv "SB_CONNECTION_STRING", .getenv "SB_ENDPOINT"]
  else [.getenv "SB_CONNECTION_STRING"]

/-- The function `runPush` of `main.go`: the error it returns (`none` for
`nil`) and the calls it made to the outside, deferred closes included. -/
def runPush (codec : NumCodec) (caseTable : Char → Char) (w : World) (config : Config) :
    Option String × List Event :=
  match validateArgs caseTable config with
  | some err => (some err, [])
  | none =>
    let ev1 := getConnectionStringEvents w
    match getConnectionString w.getenv with
    | .error err => (some err, ev1)
    | .ok connectionString =>
      let ev2 := ev1 ++ (readAndValidateJSON codec w config.Payload).2
      match (readAndValidateJSON codec w config.Payload).1 with
      | .error err => (some err, ev2)
      | .ok jsonBody =>
        let correlationID := resolveCorrelationID w config
        let ev3 := ev2 ++
          (if TrimSpace config.CorrelationID = "" then [Event.randomRead] else []) ++
          [Event.newClient connectionString]
        match w.newClient connectionString with
        | some err => (some ("erro ao criar cliente do Service Bus: " ++ err), ev3)
        | none =>
          let finalName := (resolveDestination caseTable config).1
          let destinationKind := (resolveDestination caseTable config).2
          let ev4 := ev3 ++ [Event.newSender finalName]
          match w.newSender finalName with
          | some err => (some ("erro ao criar sender: " ++ err), ev4 ++ [.closeClient])
          | none =>
            match jsonUnmarshal codec jsonBody with
            | none => (some "erro ao parsear JSON", ev4 ++ [.closeSender, .closeClient])
            | some _ =>
              let contentType := "application/json"
              let ev5 := ev4 ++ [Event.sendMessage finalName jsonBody contentType correlationID]
              match w.sendMessage finalName jsonBody correlationID with
              | some err =>
                (some ("erro ao enviar mensagem: " ++ err), ev5 ++ [.closeSender, .closeClient])
              | none =>
                (none, ev5 ++
                  [.print ("Mensagem enviada com sucesso para " ++ destinationKind ++ ": " ++
                      finalName ++ " (correlationId=" ++ correlationID ++ ")\n"),
                    .closeSender, .closeClient])

/-- The report line of a successful run. -/
def reportLine (caseTable : Char → Char) (w : World) (c : Config) : String :=
  "Mensagem enviada com sucesso para " ++ (resolveDestination caseTable c).2 ++ ": " ++
    (resolveDestination caseTable c).1 ++ " (correlationId=" ++ resolveCorrelationID w c ++ ")\n"

/-- The string `s` is `lower` up to the case of its ASCII letters: at every
position it has the letter of `lower` or that letter in upper case. -/
def isCaseVariant (lower s : String) : Bool :=
  s.data.length == lower.data.length &&
    (List.zipWith (fun l c => c == l || c.toNat + 32 == l.toNat) lower.data s.data).all id

/-- The string neither starts nor ends with white space. -/
def noOuterSpace (s : String) : Prop :=
  (∀ c, s.data.head? = some c → isSpace c = false) ∧
    (∀ c, s.data.getLast? = some c → isSpace c = false)

/-- The step of `runPush` a call to the outside belongs to: 1 the connection
string, 2 the payload file, 3 the correlation id, 4 the broker client, 5 the
sender, 6 the send, 7 the report.  A deferred close belongs to the step that
opened what it closes. -/
def Event.stage : Event → Nat
  | .getenv _ => 1
  | .abs _ => 2
  | .stat _ => 2
  | .openFile _ => 2
  | .readAll _ => 2
  | .closeFile _ => 2
  | .randomRead => 3
  | .newClient _ => 4
  | .closeClient => 4
  | .newSender _ => 5
  | .closeSender => 5
  | .sendMessage _ _ _ _ => 6
  | .print _ => 7

/-- A call that touches the file system. -/
def Event.isFileAccess : Event → Bool
  | .abs _ | .stat _ | .openFile _ | .readAll _ | .closeFile _ => true
  | _ => false

/-- A call into the Service Bus SDK. -/
def Event.isBrokerCall : Event → Bool
  | .newClient _ | .closeClient | .newSender _ | .closeSender | .sendMessage _ _ _ _ => true
  | _ => false

def isLowerHex (c : Char) : Bool :=
  (decide (48 ≤ c.toNat) && decide (c.toNat ≤ 57)) || (decide (97 ≤ c.toNat) && decide (c.toNat ≤ 102))

/-- The textual form of a version-4 UUID: `xxxxxxxx-xxxx-4xxx-yxxx-xxxxxxxxxxxx`
in lower-case hexadecimal with `y` one of `8`, `9`, `a`, `b`. -/
def isUUIDv4 (s : String) : Bool :=
  match s.data with
  | a0 :: a1 :: a2 :: a3 :: a4 :: a5 :: a6 :: a7 :: d1 :: b0 :: b1 :: b2 :: b3 :: d2 ::
      v :: c1 :: c2 :: c3 :: d3 :: y :: e1 :: e2 :: e3 :: d4 ::
      f0 :: f1 :: f2 :: f3 :: f4 :: f5 :: f6 :: f7 :: f8 :: f9 :: f10 :: f11 :: [] =>
    [a0, a1, a2, a3, a4, a5, a6, a7, b0, b1, b2, b3, c1, c2, c3, e1, e2, e3,
      f0, f1, f2, f3, f4, f5, f6, f7, f8, f9, f10, f11].all isLowerHex &&
    d1 == '-' && d2 == '-' && d3 == '-' && d4 == '-' && v == '4' &&
    (y == '8' || y == '9' || y == 'a' || y == 'b')
  | _ => false

deriving instance DecidableEq for Except

/-! ## Canonical JSON texts -/

/-- The text of a token as `json.Marshal` writes it. -/
def tokenText : Token → List Char
  | .beginObject => ['\x7b']
  | .endObject => ['\x7d']
  | .beginArray => ['[']
  | .endArray => [']']
  | .colon => [':']
  | .comma => [',']
  | .litTrue => ['t', 'r', 'u', 'e']
  | .litFalse => ['f', 'a', 'l', 's', 'e']
  | .litNull => ['n', 'u', 'l', 'l']
  | .str s => quoteString s
  | .num lit => lit

/-- A token sequence written with the white space `ws` in front of each token. -/
def renderPadded : List (List Char × Token) → List Char
  | [] => []
  | (ws, t) :: rest => ws ++ (tokenText t ++ renderPadded rest)

/-- A token sequence written without white space. -/
def render : List Token → List Char
  | [] => []
  | t :: rest => tokenText t ++ render rest

/-- The number scanner stops in front of this text: it is empty or starts with
a character that cannot continue a number literal. -/
def stopsNumber (text : List Char) : Prop :=
  ∀ c, text.head? = some c → isDigit c = false ∧ c ≠ '.' ∧ c ≠ 'e' ∧ c ≠ 'E'

/-- The text is one whole number literal of the JSON grammar. -/
def validNumber (lit : List Char) : Prop := scanNumber lit = some (lit, [])

/-- The tokens that may follow a value inside an array or an object. -/
def isCloser : Token → Bool
  | .comma | .endArray | .endObject => true
  | _ => false

/-- Every number token holds a whole number literal and is followed, if by
anything, by a comma or a closing bracket. -/
def numsDelimited : List Token → Prop
  | [] => True
  | .num lit :: rest =>
    validNumber lit ∧ (∀ t, rest.head? = some t → isCloser t = true) ∧ numsDelimited rest
  | _ :: rest => numsDelimited rest

mutual
/-- The tokens of the text `json.Marshal` writes for a value. -/
def tokensOf (codec : NumCodec) : JValue codec.F → Except String (List Token)
  | .null => .ok [.litNull]
  | .bool true => .ok [.litTrue]
  | .bool false => .ok [.litFalse]
  | .num f =>
    match codec.formatFloat f with
    | .ok lit => .ok [.num lit]
    | .error e => .error e
  | .str s => .ok [.str s]
  | .arr xs =>
    match elementTokens codec xs with
    | .ok body => .ok (.beginArray :: (body ++ [.endArray]))
    | .error e => .error e
  | .obj m =>
    match memberTokens codec m with
    | .ok body => .ok (.beginObject :: (body ++ [.endObject]))
    | .error e => .error e
/-- The tokens of the elements of an array, commas included. -/
def elementTokens (codec : NumCodec) : List (JValue codec.F) → Except String (List Token)
  | [] => .ok []
  | [v] => tokensOf codec v
  | v :: w :: rest =>
    match tokensOf codec v with
    | .ok a =>
      match elementTokens codec (w :: rest) with
      | .ok b => .ok (a ++ .comma :: b)
      | .error e => .error e
    | .error e => .error e
/-- The tokens of the entries of a map, colons and commas included. -/
def memberTokens (codec : NumCodec) :
    List (List Char × JValue codec.F) → Except String (List Token)
  | [] => .ok []
  | [(k, v)] =>
    match tokensOf codec v with
    | .ok a => .ok (.str k :: .colon :: a)
    | .error e => .error e
  | (k, v) :: e :: rest =>
    match tokensOf codec v with
    | .ok a =>
      match memberTokens codec (e :: rest) with
      | .ok b => .ok (.str k :: .colon :: (a ++ .comma :: b))
      | .error err => .error err
    | .error err => .error err
end

/-- The next token is a comma or a closing bracket, if there is one. -/
def closerHead (ts : List Token) : Prop := ∀ t, ts.head? = some t → isCloser t = true

mutual
/-- The nesting depth of a value: the number of brackets open at its deepest point. -/
def depthOf {F : Type} : JValue F → Nat
  | .arr xs => 1 + depthOfList xs
  | .obj m => 1 + depthOfMembers m
  | _ => 0
def depthOfList {F : Type} : List (JValue F) → Nat
  | [] => 0
  | v :: vs => max (depthOf v) (depthOfList vs)
def depthOfMembers {F : Type} : List (List Char × JValue F) → Nat
  | [] => 0
  | (_, v) :: rest => max (depthOf v) (depthOfMembers rest)
end

/-- The keys of the entries are in strictly ascending order. -/
def keysAscending {V : Type} : List (List Char × V) → Prop
  | [] => True
  | [_] => True
  | (k1, _) :: (k2, v2) :: rest => keyLess k1 k2 = true ∧ keysAscending ((k2, v2) :: rest)

mutual
/-- Every map inside the value has its entries in strictly ascending key
order, which is how the value of a Go map is kept here. -/
def Canon {F : Type} : JValue F → Prop
  | .arr xs => CanonList xs
  | .obj m => keysAscending m ∧ CanonMembers m
  | _ => True
def CanonList {F : Type} : List (JValue F) → Prop
  | [] => True
  | v :: vs => Canon v ∧ CanonList vs
def CanonMembers {F : Type} : List (List Char × JValue F) → Prop
  | [] => True
  | (_, v) :: rest => Canon v ∧ CanonMembers rest
end

/-- The contract of the number conversions: what the float encoder writes is a
number literal of the JSON grammar that parses back to the same value
(`strconv` prints the shortest decimal that `ParseFloat` returns exactly). -/
def NumCodec.RoundTrips (codec : NumCodec) : Prop :=
  ∀ f lit, codec.formatFloat f = .ok lit → validNumber lit ∧ codec.parseFloat lit = some f

/-- A token that can start a value. -/
def startsValue : Token → Prop
  | .endArray | .endObject | .colon | .comma => False
  | _ => True


/-! ## A number codec for small integers -/

/-- The decimal digits of `n`, for `n < 10 ^ (fuel + 1)`. -/
def decimalDigits : Nat → Nat → List Char
  | 0, n => [Char.ofNat (48 + n % 10)]
  | fuel + 1, n =>
    if n < 10 then [Char.ofNat (48 + n)]
    else decimalDigits fuel (n / 10) ++ [Char.ofNat (48 + n % 10)]

/-- The number a string of decimal digits stands for. -/
def decimalValue (ds : List Char) : Nat := ds.foldl (fun a c => a * 10 + (c.toNat - 48)) 0

/-- The magnitude of an integer literal that `float64` holds exactly. -/
def parseSmallNat (neg : Bool) (ds : List Char) : Option (Bool × Nat) :=
  if ds ≠ [] ∧ ds.all isDigit = true ∧ decimalValue ds < 2 ^ 53 then some (neg, decimalValue ds)
  else none

/-- The `float64` conversions on the integer literals below `2 ^ 53` in
magnitude, kept as sign and magnitude (zero has both signs, as in `float64`).
There `strconv.ParseFloat` is exact and the encoder of `json.Marshal` writes
the digits back.  On every other literal this codec reports an error where Go
would round, so it covers a part of what Go accepts. -/
def smallIntCodec : NumCodec where
  F := Bool × Nat
  parseFloat := fun lit =>
    match lit with
    | c :: ds => if c = '-' then parseSmallNat true ds else parseSmallNat false (c :: ds)
    | [] => none
  formatFloat := fun f =>
    if f.2 < 2 ^ 53 then .ok ((if f.1 then ['-'] else []) ++ decimalDigits 16 f.2)
    else .error "json: unsupported value"

/-- A surrounding in which every call succeeds and the payload file holds
`content`. -/
def worldWithPayload (content : String) : World where
  getenv := fun n => if n = "SB_ENDPOINT" then " Endpoint=sb://x/ " else ""
  abs := fun p => .ok ("/w/" ++ p)
  stat := fun _ => some true
  openFile := fun _ => true
  readAll := fun _ => some content
  random := fun i => 17 * i + 3
  newClient := fun _ => none
  newSender := fun _ => none
  sendMessage := fun _ _ _ => none

/-! # Theorems -/

/-! ## Argument validation -/

theorem string_eq_empty_iff (s : String) : s = "" ↔ s.data = [] := by
  cases s with
  | mk d => constructor <;> intro h
            · rw [h]
            · simp at h; subst h; rfl

theorem validateArgs_none_iff (caseTable : Char → Char) (c : Config) :
    validateArgs caseTable c = none ↔
      c.Payload ≠ "" ∧
        ((c.Destination ≠ "" ∧ c.Type_ ≠ "" ∧ c.Queue = "" ∧ c.Topic = "" ∧
            (ToLower caseTable c.Type_ = "queue" ∨ ToLower caseTable c.Type_ = "topic")) ∨
          (c.Destination = "" ∧ c.Type_ = "" ∧
            ((c.Queue ≠ "" ∧ c.Topic = "") ∨ (c.Queue = "" ∧ c.Topic ≠ "")))) := by
  unfold validateArgs
  by_cases hp : c.Payload = "" <;> by_cases hd : c.Destination = "" <;>
    by_cases ht : c.Type_ = "" <;> by_cases hq : c.Queue = "" <;>
    by_cases hk : c.Topic = "" <;>
    by_cases h1 : ToLower caseTable c.Type_ = "queue" <;>
    by_cases h2 : ToLower caseTable c.Type_ = "topic" <;>
    simp [hp, hd, ht, hq, hk, h1, h2]

/-- C1: `validateArgs` returns no error exactly for a non-empty payload with
either a complete unified destination (both fields set, no legacy field, type
`queue` or `topic` after lower-casing) or a legacy destination (no unified
field, exactly one of queue and topic); a configuration that sets a unified
and a legacy field is always rejected. -/
theorem validateArgs_accepts_iff (caseTable : Char → Char) (c : Config) :
    (validateArgs caseTable c = none ↔
      c.Payload ≠ "" ∧
        ((c.Destination ≠ "" ∧ c.Type_ ≠ "" ∧ c.Queue = "" ∧ c.Topic = "" ∧
            (ToLower caseTable c.Type_ = "queue" ∨ ToLower caseTable c.Type_ = "topic")) ∨
          (c.Destination = "" ∧ c.Type_ = "" ∧
            ((c.Queue ≠ "" ∧ c.Topic = "") ∨ (c.Queue = "" ∧ c.Topic ≠ ""))))) ∧
    ((c.Destination ≠ "" ∨ c.Type_ ≠ "") ∧ (c.Queue ≠ "" ∨ c.Topic ≠ "") →
      validateArgs caseTable c ≠ none) := by
  unfold validateArgs
  by_cases hp : c.Payload = "" <;> by_cases hd : c.Destination = "" <;>
    by_cases ht : c.Type_ = "" <;> by_cases hq : c.Queue = "" <;>
    by_cases hk : c.Topic = "" <;>
    by_cases h1 : ToLower caseTable c.Type_ = "queue" <;>
    by_cases h2 : ToLower caseTable c.Type_ = "topic" <;>
    simp [hp, hd, ht, hq, hk, h1, h2]

/-- C2: with an empty payload `validateArgs` fails with the missing-payload
error, whatever the other fields hold. -/
theorem validateArgs_empty_payload (caseTable : Char → Char) (c : Config)
    (h : c.Payload = "") :
    validateArgs caseTable c = some "parâmetro obrigatório ausente: --payload" := by
  simp [validateArgs, h, errMissingPayload]

theorem validateArgs_empty_payload_witness :
    validateArgs id ⟨"a", "b", "d", "Queue", "", "cid"⟩
      = some "parâmetro obrigatório ausente: --payload" :=
  validateArgs_empty_payload id ⟨"a", "b", "d", "Queue", "", "cid"⟩ rfl

/-- C3, as stated, fails: with a queue and a topic both given, an empty payload
yields the missing-payload error and a unified field yields the do-not-mix
error, not the use-only-one-destination error. -/
theorem validateArgs_queue_and_topic_counterexample :
    validateArgs id ⟨"a", "b", "", "", "", ""⟩ = some "parâmetro obrigatório ausente: --payload" ∧
    validateArgs id ⟨"a", "b", "d", "", "p.json", ""⟩
      = some "não misture --destination/--type com --queue/--topic" ∧
    validateArgs id ⟨"a", "b", "", "", "", ""⟩ ≠ some "use apenas um destino: --queue ou --topic" ∧
    validateArgs id ⟨"a", "b", "d", "", "p.json", ""⟩
      ≠ some "use apenas um destino: --queue ou --topic" := by
  decide

/-- C3, amended: with a queue and a topic both given `validateArgs` always
fails, and the error is the first rule broken: missing payload, then mixed
modes, then use only one destination. -/
theorem validateArgs_queue_and_topic (caseTable : Char → Char) (c : Config)
    (hq : c.Queue ≠ "") (ht : c.Topic ≠ "") :
    validateArgs caseTable c =
      some (if c.Payload = "" then "parâmetro obrigatório ausente: --payload"
        else if c.Destination ≠ "" ∨ c.Type_ ≠ "" then
          "não misture --destination/--type com --queue/--topic"
        else "use apenas um destino: --queue ou --topic") := by
  unfold validateArgs
  by_cases hp : c.Payload = "" <;> by_cases hd : c.Destination = "" <;>
    by_cases hy : c.Type_ = "" <;>
    simp [hp, hd, hy, hq, ht, errMissingPayload, errMixedModes, errOneDestination]

theorem validateArgs_queue_and_topic_witness :
    validateArgs id ⟨"a", "b", "", "", "p.json", ""⟩
      = some "use apenas um destino: --queue ou --topic" :=
  validateArgs_queue_and_topic id ⟨"a", "b", "", "", "p.json", ""⟩ (by decide) (by decide)

theorem char_eq_of_toNat (c : Char) (n : Nat) (h : c.toNat = n) : c = Char.ofNat n := by
  rw [← h, Char.ofNat_toNat]

theorem caseVariant_cases (l c : Char) (h : (c == l || c.toNat + 32 == l.toNat) = true) :
    c = l ∨ c = Char.ofNat (l.toNat - 32) := by
  simp only [Bool.or_eq_true, beq_iff_eq] at h
  rcases h with h | h
  · exact Or.inl h
  · exact Or.inr (char_eq_of_toNat c _ (by omega))

theorem ToLower_of_caseVariant_queue (caseTable : Char → Char) (t : String)
    (h : isCaseVariant "queue" t = true) : ToLower caseTable t = "queue" := by
  obtain ⟨d⟩ := t
  simp only [isCaseVariant, Bool.and_eq_true, beq_iff_eq] at h
  obtain ⟨hlen, hall⟩ := h
  match d, hlen, hall with
  | [a, b, c, e, f], _, hall =>
    simp only [List.zipWith, List.all_cons, List.all_nil, id, Bool.and_true,
      Bool.and_eq_true] at hall
    obtain ⟨ha, hb, hc, he, hf⟩ := hall
    rcases caseVariant_cases _ _ ha with rfl | rfl <;>
      rcases caseVariant_cases _ _ hb with rfl | rfl <;>
      rcases caseVariant_cases _ _ hc with rfl | rfl <;>
      rcases caseVariant_cases _ _ he with rfl | rfl <;>
      rcases caseVariant_cases _ _ hf with rfl | rfl <;> rfl

theorem ToLower_of_caseVariant_topic (caseTable : Char → Char) (t : String)
    (h : isCaseVariant "topic" t = true) : ToLower caseTable t = "topic" := by
  obtain ⟨d⟩ := t
  simp only [isCaseVariant, Bool.and_eq_true, beq_iff_eq] at h
  obtain ⟨hlen, hall⟩ := h
  match d, hlen, hall with
  | [a, b, c, e, f], _, hall =>
    simp only [List.zipWith, List.all_cons, List.all_nil, id, Bool.and_true,
      Bool.and_eq_true] at hall
    obtain ⟨ha, hb, hc, he, hf⟩ := hall
    rcases caseVariant_cases _ _ ha with rfl | rfl <;>
      rcases caseVariant_cases _ _ hb with rfl | rfl <;>
      rcases caseVariant_cases _ _ hc with rfl | rfl <;>
      rcases caseVariant_cases _ _ he with rfl | rfl <;>
      rcases caseVariant_cases _ _ hf with rfl | rfl <;> rfl

theorem caseVariant_ne_empty (l t : String) (hl : l ≠ "") (h : isCaseVariant l t = true) :
    t ≠ "" := by
  intro h0
  subst h0
  simp only [isCaseVariant, Bool.and_eq_true, beq_iff_eq] at h
  apply hl
  rw [string_eq_empty_iff]
  exact List.length_eq_zero.mp h.1.symm

/-- C4: in unified mode the type is read without regard to case and decides
the kind: any case variant of `queue` is accepted and gives the queue kind,
any case variant of `topic` is accepted and gives the topic kind; and for an
accepted unified configuration the kind is the topic kind exactly when the
lower-cased type is `topic` (the queue kind exactly when it is `queue`). -/
theorem unified_type_case_insensitive (caseTable : Char → Char) (c : Config) :
    (c.Payload ≠ "" → c.Destination ≠ "" → c.Queue = "" → c.Topic = "" →
      isCaseVariant "queue" c.Type_ = true →
        validateArgs caseTable c = none ∧ (resolveDestination caseTable c).2 = "fila") ∧
    (c.Payload ≠ "" → c.Destination ≠ "" → c.Queue = "" → c.Topic = "" →
      isCaseVariant "topic" c.Type_ = true →
        validateArgs caseTable c = none ∧ (resolveDestination caseTable c).2 = "tópico") ∧
    (validateArgs caseTable c = none → c.Destination ≠ "" →
      ((resolveDestination caseTable c).2 = "tópico" ↔ ToLower caseTable c.Type_ = "topic") ∧
      ((resolveDestination caseTable c).2 = "fila" ↔ ToLower caseTable c.Type_ = "queue")) := by
  refine ⟨?_, ?_, ?_⟩
  · intro hp hd hq hk hv
    have hl := ToLower_of_caseVariant_queue caseTable _ hv
    have hne := caseVariant_ne_empty _ _ (by decide) hv
    refine ⟨(validateArgs_none_iff caseTable c).2
      ⟨hp, Or.inl ⟨hd, hne, hq, hk, Or.inl hl⟩⟩, ?_⟩
    simp [resolveDestination, hd, hl]
  · intro hp hd hq hk hv
    have hl := ToLower_of_caseVariant_topic caseTable _ hv
    have hne := caseVariant_ne_empty _ _ (by decide) hv
    refine ⟨(validateArgs_none_iff caseTable c).2
      ⟨hp, Or.inl ⟨hd, hne, hq, hk, Or.inr hl⟩⟩, ?_⟩
    have h1 : ("topic" : String) ≠ "queue" := by decide
    simp [resolveDestination, hd, hl, h1]
  · intro hv hd
    have hacc := (validateArgs_none_iff caseTable c).1 hv
    have hty : ToLower caseTable c.Type_ = "queue" ∨ ToLower caseTable c.Type_ = "topic" := by
      rcases hacc.2 with h | h
      · exact h.2.2.2.2
      · exact absurd h.1 hd
    have h1 : ("topic" : String) ≠ "queue" := by decide
    have h2 : ("queue" : String) ≠ "topic" := by decide
    have h3 : ("fila" : String) ≠ "tópico" := by decide
    have h4 : ("tópico" : String) ≠ "fila" := by decide
    rcases hty with h | h
    · simp [resolveDestination, hd, h, h2, h3]
    · simp [resolveDestination, hd, h, h1, h4]

/-- C4 at `--destination=X --type=Queue`. -/
theorem unified_type_case_insensitive_witness :
    validateArgs id ⟨"", "", "X", "Queue", "p.json", ""⟩ = none ∧
      (resolveDestination id ⟨"", "", "X", "Queue", "p.json", ""⟩).2 = "fila" :=
  (unified_type_case_insensitive id ⟨"", "", "X", "Queue", "p.json", ""⟩).1
    (by decide) (by decide) rfl rfl (by decide)

/-- C9, as stated, fails: the name is the trimmed value, which differs from
the configuration's value when that has white space around it. -/
theorem destination_name_counterexample :
    validateArgs id ⟨"", "", " x", "queue", "p.json", ""⟩ = none ∧
    (resolveDestination id ⟨"", "", " x", "queue", "p.json", ""⟩).1 = "x" ∧
    (resolveDestination id ⟨"", "", " x", "queue", "p.json", ""⟩).1 ≠ " x" := by
  decide

/-! ## White space trimming and the connection string -/

theorem TrimSpace_eq_empty_iff (s : String) :
    TrimSpace s = "" ↔ ∀ c ∈ s.data, isSpace c = true := by
  rw [string_eq_empty_iff]
  simp only [TrimSpace, List.rdropWhile_eq_nil_iff, List.dropWhile_eq_nil_iff]
  constructor
  · intro h
    have h0 : s.data.dropWhile isSpace = [] := by
      by_contra hne
      have hnot := List.head_dropWhile_not isSpace s.data hne
      have hsp := h _ (List.head_mem hne)
      rw [hsp] at hnot
      exact absurd hnot (by decide)
    exact List.dropWhile_eq_nil_iff.mp h0
  · intro h
    have h0 : s.data.dropWhile isSpace = [] := List.dropWhile_eq_nil_iff.mpr h
    rw [h0]
    simp

theorem TrimSpace_noOuterSpace (s : String) : noOuterSpace (TrimSpace s) := by
  constructor
  · intro c hc
    simp only [TrimSpace] at hc
    have hne : (s.data.dropWhile isSpace).rdropWhile isSpace ≠ [] := by
      intro h0
      rw [h0] at hc
      simp at hc
    have hpre := List.rdropWhile_prefix isSpace (l := s.data.dropWhile isSpace)
    have hhead := hpre.head hne
    have hne2 : s.data.dropWhile isSpace ≠ [] := by
      intro h0
      rw [h0] at hne
      simp at hne
    have hnot := List.head_dropWhile_not isSpace s.data hne2
    rw [List.head?_eq_head hne] at hc
    have hcc : c = ((s.data.dropWhile isSpace).rdropWhile isSpace).head hne :=
      (Option.some.inj hc).symm
    rw [hcc, hhead]
    exact hnot
  · intro c hc
    simp only [TrimSpace] at hc
    have hne : (s.data.dropWhile isSpace).rdropWhile isSpace ≠ [] := by
      intro h0
      rw [h0] at hc
      simp at hc
    have hnot := List.rdropWhile_last_not isSpace (s.data.dropWhile isSpace) hne
    rw [List.getLast?_eq_getLast _ hne] at hc
    have hcc : c = ((s.data.dropWhile isSpace).rdropWhile isSpace).getLast hne :=
      (Option.some.inj hc).symm
    rw [hcc]
    simpa using hnot

/-- C6, as stated, fails: a primary variable that is set but blank is not
replaced by the fallback, so the call fails although `SB_ENDPOINT` holds a
usable value. -/
theorem getConnectionString_blank_primary_counterexample :
    getConnectionString
        (fun n => if n = "SB_CONNECTION_STRING" then " "
          else if n = "SB_ENDPOINT" then "Endpoint=sb://x/" else "")
      = .error errNoConnection ∧
    TrimSpace "Endpoint=sb://x/" = "Endpoint=sb://x/" ∧
    TrimSpace "Endpoint=sb://x/" ≠ "" := by
  decide

/-- C6, amended: the value used is that of `SB_CONNECTION_STRING` unless it is
the empty string, in which case it is that of `SB_ENDPOINT`; the call fails
exactly when the value used is blank after trimming and otherwise returns it
trimmed; a returned string is never empty and neither starts nor ends with
white space. -/
theorem getConnectionString_spec (getenv : String → String) :
    ((∃ e, getConnectionString getenv = .error e) ↔
      TrimSpace (if getenv "SB_CONNECTION_STRING" = "" then getenv "SB_ENDPOINT"
        else getenv "SB_CONNECTION_STRING") = "") ∧
    (TrimSpace (if getenv "SB_CONNECTION_STRING" = "" then getenv "SB_ENDPOINT"
        else getenv "SB_CONNECTION_STRING") ≠ "" →
      getConnectionString getenv =
        .ok (TrimSpace (if getenv "SB_CONNECTION_STRING" = "" then getenv "SB_ENDPOINT"
          else getenv "SB_CONNECTION_STRING"))) ∧
    (∀ s, getConnectionString getenv = .ok s → s ≠ "" ∧ noOuterSpace s) := by
  have hempty : TrimSpace "" = "" := by decide
  generalize hsel : (if getenv "SB_CONNECTION_STRING" = "" then getenv "SB_ENDPOINT"
        else getenv "SB_CONNECTION_STRING") = sel
  have hdef : getConnectionString getenv =
      if sel = "" ∨ TrimSpace sel = "" then .error errNoConnection else .ok (TrimSpace sel) := by
    simp only [getConnectionString, hsel]
  rw [hdef]
  by_cases h1 : sel = ""
  · subst h1
    simp [hempty]
  · by_cases h2 : TrimSpace sel = ""
    · simp [h1, h2]
    · simp only [h1, h2, or_self, if_false]
      refine ⟨by simp, by simp, ?_⟩
      intro s hs
      have hs2 : TrimSpace sel = s := by simpa using hs
      rw [← hs2]
      exact ⟨h2, TrimSpace_noOuterSpace sel⟩

/-! ## `runPush` -/

theorem readAndValidateJSON_events (codec : NumCodec) (w : World) (p : String) :
    ∀ ev ∈ (readAndValidateJSON codec w p).2, ev.stage = 2 := by
  intro ev hev
  unfold readAndValidateJSON at hev
  repeat' split at hev
  all_goals
    simp only [List.mem_cons, List.mem_singleton, List.not_mem_nil, or_false] at hev
    repeat (first | (subst hev; rfl) | (rcases hev with h | hev; · subst h; rfl))

theorem getConnectionStringEvents_stage (w : World) :
    ∀ ev ∈ getConnectionStringEvents w, ev.stage = 1 := by
  intro ev hev
  unfold getConnectionStringEvents at hev
  split at hev
  all_goals
    simp only [List.mem_cons, List.mem_singleton, List.not_mem_nil, or_false] at hev
    repeat (first | (subst hev; rfl) | (rcases hev with h | hev; · subst h; rfl))

theorem stage_le_of_prefix (w : World) (codec : NumCodec) (p : String) (ev : Event)
    (h : ev ∈ getConnectionStringEvents w ++ (readAndValidateJSON codec w p).2) :
    ev.stage ≤ 2 := by
  rcases List.mem_append.mp h with h | h
  · rw [getConnectionStringEvents_stage w ev h]
    decide
  · rw [readAndValidateJSON_events codec w p ev h]

theorem stage_le_of_client (w : World) (codec : NumCodec) (c : Config) (conn : String)
    (ev : Event)
    (h : ev ∈ getConnectionStringEvents w ++ (readAndValidateJSON codec w c.Payload).2 ++
      (if TrimSpace c.CorrelationID = "" then [Event.randomRead] else []) ++
      [Event.newClient conn]) :
    ev.stage ≤ 4 := by
  rcases List.mem_append.mp h with h | h
  · rcases List.mem_append.mp h with h | h
    · have := stage_le_of_prefix w codec c.Payload ev h
      omega
    · split at h
      · rw [List.mem_singleton.mp h]
        simp [Event.stage]
      · simp at h
  · rw [List.mem_singleton.mp h]
    simp [Event.stage]

theorem runPush_trace_cases (codec : NumCodec) (caseTable : Char → Char) (w : World)
    (c : Config) (ev : Event) (hev : ev ∈ (runPush codec caseTable w c).2) :
    ev.stage ≤ 4 ∨ ev = .newSender (resolveDestination caseTable c).1 ∨ ev = .closeSender ∨
      (∃ body, (readAndValidateJSON codec w c.Payload).1 = .ok body ∧
        ev = .sendMessage (resolveDestination caseTable c).1 body "application/json"
          (resolveCorrelationID w c)) ∨
      ev = .print (reportLine caseTable w c) := by
  cases hv : validateArgs caseTable c with
  | some e => simp [runPush, hv] at hev
  | none =>
  cases hc : getConnectionString w.getenv with
  | error e =>
    simp only [runPush, hv, hc] at hev
    left
    rw [getConnectionStringEvents_stage w ev hev]
    decide
  | ok conn =>
  cases hbody : (readAndValidateJSON codec w c.Payload).1 with
  | error e =>
    simp only [runPush, hv, hc, hbody] at hev
    left
    have := stage_le_of_prefix w codec c.Payload ev hev
    omega
  | ok body =>
  have hpre : ∀ e, e ∈ getConnectionStringEvents w ++ (readAndValidateJSON codec w c.Payload).2 ++
      (if TrimSpace c.CorrelationID = "" then [Event.randomRead] else []) ++
      [Event.newClient conn] ++ [Event.newSender (resolveDestination caseTable c).1] →
      e.stage ≤ 4 ∨ e = .newSender (resolveDestination caseTable c).1 := by
    intro e he
    rcases List.mem_append.mp he with h | h
    · exact Or.inl (stage_le_of_client w codec c conn e h)
    · exact Or.inr (List.mem_singleton.mp h)
  have hclose : ∀ e, e ∈ [Event.closeSender, Event.closeClient] →
      e.stage ≤ 4 ∨ e = .closeSender := by
    intro e he
    simp only [List.mem_cons, List.mem_singleton, List.not_mem_nil, or_false] at he
    rcases he with h | h
    · exact Or.inr h
    · left
      rw [h]
      decide
  cases hcl : w.newClient conn with
  | some e =>
    simp only [runPush, hv, hc, hbody, hcl] at hev
    left
    exact stage_le_of_client w codec c conn ev hev
  | none =>
  cases hs : w.newSender (resolveDestination caseTable c).1 with
  | some e =>
    simp only [runPush, hv, hc, hbody, hcl, hs] at hev
    rcases List.mem_append.mp hev with h | h
    · rcases hpre ev h with h | h
      · exact Or.inl h
      · exact Or.inr (Or.inl h)
    · left
      rw [List.mem_singleton.mp h]
      decide
  | none =>
  cases hj : jsonUnmarshal codec body with
  | none =>
    simp only [runPush, hv, hc, hbody, hcl, hs, hj] at hev
    rcases List.mem_append.mp hev with h | h
    · rcases hpre ev h with h | h
      · exact Or.inl h
      · exact Or.inr (Or.inl h)
    · rcases hclose ev h with h | h
      · exact Or.inl h
      · exact Or.inr (Or.inr (Or.inl h))
  | some v =>
  cases hsend : w.sendMessage (resolveDestination caseTable c).1 body
      (resolveCorrelationID w c) with
  | some e =>
    simp only [runPush, hv, hc, hbody, hcl, hs, hj, hsend] at hev
    rcases List.mem_append.mp hev with h | h
    · rcases List.mem_append.mp h with h | h
      · rcases hpre ev h with h | h
        · exact Or.inl h
        · exact Or.inr (Or.inl h)
      · exact Or.inr (Or.inr (Or.inr (Or.inl ⟨body, rfl, List.mem_singleton.mp h⟩)))
    · rcases hclose ev h with h | h
      · exact Or.inl h
      · exact Or.inr (Or.inr (Or.inl h))
  | none =>
    simp only [runPush, hv, hc, hbody, hcl, hs, hj, hsend] at hev
    rcases List.mem_append.mp hev with h | h
    · rcases List.mem_append.mp h with h | h
      · rcases hpre ev h with h | h
        · exact Or.inl h
        · exact Or.inr (Or.inl h)
      · exact Or.inr (Or.inr (Or.inr (Or.inl ⟨body, rfl, List.mem_singleton.mp h⟩)))
    · simp only [List.mem_cons, List.mem_singleton, List.not_mem_nil, or_false] at h
      rcases h with h | h | h
      · exact Or.inr (Or.inr (Or.inr (Or.inr h)))
      · exact Or.inr (Or.inr (Or.inl h))
      · left
        rw [h]
        decide

theorem runPush_success_trace (codec : NumCodec) (caseTable : Char → Char) (w : World)
    (c : Config) (h : (runPush codec caseTable w c).1 = none) :
    ∃ body, (readAndValidateJSON codec w c.Payload).1 = .ok body ∧
      Event.sendMessage (resolveDestination caseTable c).1 body "application/json"
        (resolveCorrelationID w c) ∈ (runPush codec caseTable w c).2 ∧
      Event.newSender (resolveDestination caseTable c).1 ∈ (runPush codec caseTable w c).2 ∧
      Event.print (reportLine caseTable w c) ∈ (runPush codec caseTable w c).2 := by
  cases hv : validateArgs caseTable c with
  | some e => simp [runPush, hv] at h
  | none =>
  cases hc : getConnectionString w.getenv with
  | error e => simp [runPush, hv, hc] at h
  | ok conn =>
  cases hbody : (readAndValidateJSON codec w c.Payload).1 with
  | error e => simp [runPush, hv, hc, hbody] at h
  | ok body =>
  cases hcl : w.newClient conn with
  | some e => simp [runPush, hv, hc, hbody, hcl] at h
  | none =>
  cases hs : w.newSender (resolveDestination caseTable c).1 with
  | some e => simp [runPush, hv, hc, hbody, hcl, hs] at h
  | none =>
  cases hj : jsonUnmarshal codec body with
  | none => simp [runPush, hv, hc, hbody, hcl, hs, hj] at h
  | some v =>
  cases hsend : w.sendMessage (resolveDestination caseTable c).1 body
      (resolveCorrelationID w c) with
  | some e => simp [runPush, hv, hc, hbody, hcl, hs, hj, hsend] at h
  | none =>
    refine ⟨body, rfl, ?_⟩
    simp only [runPush, hv, hc, hbody, hcl, hs, hj, hsend, reportLine]
    simp

/-- C8: `runPush` stops at the first step that fails, returns that step's error
and makes no call of a later step: a validation error leaves no call at all,
a connection-string error only the environment look-ups, a payload error no
call past the file, a client error no sender, send or report, a sender error
no send or report, a send error no report.  With both variables unset the run
fails without a file or broker call; with a payload that is not JSON it
fails with the invalid-JSON error without a broker call. -/
theorem runPush_early_exit (codec : NumCodec) (caseTable : Char → Char) (w : World)
    (c : Config) :
    (∀ e, validateArgs caseTable c = some e → runPush codec caseTable w c = (some e, [])) ∧
    (∀ e, validateArgs caseTable c = none → getConnectionString w.getenv = .error e →
      (runPush codec caseTable w c).1 = some e ∧
        ∀ ev ∈ (runPush codec caseTable w c).2, ev.stage ≤ 1) ∧
    (∀ conn e, validateArgs caseTable c = none → getConnectionString w.getenv = .ok conn →
      (readAndValidateJSON codec w c.Payload).1 = .error e →
      (runPush codec caseTable w c).1 = some e ∧
        ∀ ev ∈ (runPush codec caseTable w c).2, ev.stage ≤ 2) ∧
    (∀ conn body e, validateArgs caseTable c = none →
      getConnectionString w.getenv = .ok conn →
      (readAndValidateJSON codec w c.Payload).1 = .ok body →
      w.newClient conn = some e →
      (runPush codec caseTable w c).1 = some ("erro ao criar cliente do Service Bus: " ++ e) ∧
        ∀ ev ∈ (runPush codec caseTable w c).2, ev.stage ≤ 4) ∧
    (∀ conn body e, validateArgs caseTable c = none →
      getConnectionString w.getenv = .ok conn →
      (readAndValidateJSON codec w c.Payload).1 = .ok body →
      w.newClient conn = none →
      w.newSender (resolveDestination caseTable c).1 = some e →
      (runPush codec caseTable w c).1 = some ("erro ao criar sender: " ++ e) ∧
        ∀ ev ∈ (runPush codec caseTable w c).2, ev.stage ≤ 5) ∧
    (∀ conn body e, validateArgs caseTable c = none →
      getConnectionString w.getenv = .ok conn →
      (readAndValidateJSON codec w c.Payload).1 = .ok body →
      w.newClient conn = none →
      w.newSender (resolveDestination caseTable c).1 = none →
      (jsonUnmarshal codec body).isSome = true →
      w.sendMessage (resolveDestination caseTable c).1 body (resolveCorrelationID w c) = some e →
      (runPush codec caseTable w c).1 = some ("erro ao enviar mensagem: " ++ e) ∧
        ∀ ev ∈ (runPush codec caseTable w c).2, ev.stage ≤ 6) ∧
    (w.getenv "SB_CONNECTION_STRING" = "" → w.getenv "SB_ENDPOINT" = "" →
      (runPush codec caseTable w c).1 ≠ none ∧
        ∀ ev ∈ (runPush codec caseTable w c).2,
          ev.isFileAccess = false ∧ ev.isBrokerCall = false) ∧
    (∀ conn resolved content, validateArgs caseTable c = none →
      getConnectionString w.getenv = .ok conn →
      w.abs c.Payload = .ok resolved → w.stat resolved = some true →
      w.openFile resolved = true → w.readAll resolved = some content →
      jsonUnmarshal codec content.data = none →
      (runPush codec caseTable w c).1 = some ("conteúdo não é um JSON válido: " ++ resolved) ∧
        ∀ ev ∈ (runPush codec caseTable w c).2, ev.isBrokerCall = false) ∧
    jsonUnmarshal codec "\x7binvalid".data = none := by
  have hpay : ∀ conn e, validateArgs caseTable c = none →
      getConnectionString w.getenv = .ok conn →
      (readAndValidateJSON codec w c.Payload).1 = .error e →
      (runPush codec caseTable w c).1 = some e ∧
        ∀ ev ∈ (runPush codec caseTable w c).2, ev.stage ≤ 2 := by
    intro conn e hv hc hr
    simp only [runPush, hv, hc, hr]
    exact ⟨by first | rfl | trivial, fun ev hev => stage_le_of_prefix w codec c.Payload ev hev⟩
  refine ⟨?_, ?_, hpay, ?_, ?_, ?_, ?_, ?_, ?_⟩
  · intro e hv
    simp only [runPush, hv]
  · intro e hv hc
    simp only [runPush, hv, hc]
    refine ⟨by first | rfl | trivial, fun ev hev => ?_⟩
    rw [getConnectionStringEvents_stage w ev hev]
  · intro conn body e hv hc hr hcl
    simp only [runPush, hv, hc, hr, hcl]
    exact ⟨by first | rfl | trivial, fun ev hev => stage_le_of_client w codec c conn ev hev⟩
  · intro conn body e hv hc hr hcl hs
    simp only [runPush, hv, hc, hr, hcl, hs]
    refine ⟨by first | rfl | trivial, fun ev hev => ?_⟩
    rcases List.mem_append.mp hev with h | h
    · rcases List.mem_append.mp h with h | h
      · have := stage_le_of_client w codec c conn ev h
        omega
      · rw [List.mem_singleton.mp h]
        simp [Event.stage]
    · rw [List.mem_singleton.mp h]
      simp [Event.stage]
  · intro conn body e hv hc hr hcl hs hj hsend
    obtain ⟨v, hv2⟩ := Option.isSome_iff_exists.mp hj
    simp only [runPush, hv, hc, hr, hcl, hs, hv2, hsend]
    refine ⟨by first | rfl | trivial, fun ev hev => ?_⟩
    rcases List.mem_append.mp hev with h | h
    · rcases List.mem_append.mp h with h | h
      · rcases List.mem_append.mp h with h | h
        · have := stage_le_of_client w codec c conn ev h
          omega
        · rw [List.mem_singleton.mp h]
          simp [Event.stage]
      · rw [List.mem_singleton.mp h]
        simp [Event.stage]
    · simp only [List.mem_cons, List.mem_singleton, List.not_mem_nil, or_false] at h
      rcases h with h | h <;> rw [h] <;> simp [Event.stage]
  · intro h1 h2
    have hconn : getConnectionString w.getenv = .error errNoConnection := by
      simp [getConnectionString, h1, h2]
    cases hv : validateArgs caseTable c with
    | some e =>
      simp only [runPush, hv]
      exact ⟨by simp, by simp⟩
    | none =>
      simp only [runPush, hv, hconn]
      refine ⟨by simp, fun ev hev => ?_⟩
      have hst := getConnectionStringEvents_stage w ev hev
      cases ev <;> simp_all [Event.stage, Event.isFileAccess, Event.isBrokerCall]
  · intro conn resolved content hv hc ha hst ho hr hj
    have hrd : readAndValidateJSON codec w c.Payload =
        (.error ("conteúdo não é um JSON válido: " ++ resolved),
          [.abs c.Payload, .stat resolved, .openFile resolved, .readAll resolved,
            .closeFile resolved]) := by
      simp [readAndValidateJSON, ha, hst, ho, hr, hj]
    have h2 := hpay conn _ hv hc (by rw [hrd])
    refine ⟨h2.1, fun ev hev => ?_⟩
    have hle := h2.2 ev hev
    cases ev <;> simp_all [Event.stage, Event.isBrokerCall]
  · simp only [jsonUnmarshal]
    rfl

theorem hexDigit_isLowerHex (n : Nat) (h : n < 16) : isLowerHex (hexDigit n) = true := by
  interval_cases n <;> decide

theorem uuidNewString_isUUIDv4 (random : Nat → Nat) : isUUIDv4 (uuidNewString random) = true := by
  have hx : ∀ x, isLowerHex (hexDigit (x % 256 / 16)) = true := fun x =>
    hexDigit_isLowerHex _ (by omega)
  have hy : ∀ x, isLowerHex (hexDigit (x % 256 % 16)) = true := fun x =>
    hexDigit_isLowerHex _ (by omega)
  have h6 : hexDigit ((random 6 % 256 % 16 + 64) / 16) = '4' := by
    have : (random 6 % 256 % 16 + 64) / 16 = 4 := by omega
    rw [this]
    decide
  have h6b : isLowerHex (hexDigit ((random 6 % 256 % 16 + 64) % 16)) = true :=
    hexDigit_isLowerHex _ (by omega)
  have h8b : isLowerHex (hexDigit ((random 8 % 256 % 64 + 128) % 16)) = true :=
    hexDigit_isLowerHex _ (by omega)
  have h8 : hexDigit ((random 8 % 256 % 64 + 128) / 16) = '8' ∨
      hexDigit ((random 8 % 256 % 64 + 128) / 16) = '9' ∨
      hexDigit ((random 8 % 256 % 64 + 128) / 16) = 'a' ∨
      hexDigit ((random 8 % 256 % 64 + 128) / 16) = 'b' := by
    have : (random 8 % 256 % 64 + 128) / 16 = 8 ∨ (random 8 % 256 % 64 + 128) / 16 = 9 ∨
        (random 8 % 256 % 64 + 128) / 16 = 10 ∨ (random 8 % 256 % 64 + 128) / 16 = 11 := by
      omega
    rcases this with h | h | h | h <;> rw [h] <;> decide
  simp only [isUUIDv4, uuidNewString, hexByte, List.cons_append, List.nil_append,
    List.all_cons, List.all_nil, hx, hy, h6, h6b, h8b, Bool.and_true, Bool.true_and,
    beq_self_eq_true, Bool.or_eq_true, beq_iff_eq]
  rcases h8 with h | h | h | h <;> simp [h]

theorem uuidNewString_head_not_space (random : Nat → Nat) :
    ∃ c rest, (uuidNewString random).data = c :: rest ∧ isSpace c = false := by
  have hsp : ∀ n, n < 16 → isSpace (hexDigit n) = false := by
    intro n hn
    interval_cases n <;> decide
  simp only [uuidNewString, hexByte, List.cons_append, List.nil_append]
  exact ⟨_, _, rfl, hsp _ (by omega)⟩

theorem TrimSpace_eq_self (s : String) (h : noOuterSpace s) : TrimSpace s = s := by
  obtain ⟨d⟩ := s
  obtain ⟨h1, h2⟩ := h
  simp only at h1 h2
  have hd : d.dropWhile isSpace = d := by
    cases d with
    | nil => rfl
    | cons a t =>
      have := h1 a rfl
      simp [List.dropWhile, this]
  have hr : d.rdropWhile isSpace = d := by
    rw [List.rdropWhile_eq_self_iff]
    intro hl
    have := h2 (d.getLast hl) (List.getLast?_eq_getLast d hl)
    simp [this]
  simp only [TrimSpace, hd, hr]

/-- C7: the correlation id on the message sent, and in the report, is the
trimmed `--correlation-id` when that is not empty (so `abc-123` for
`abc-123`), and otherwise the string of a newly drawn version-4 UUID, which
is never the user's input. -/
theorem correlation_id_resolution (codec : NumCodec) (caseTable : Char → Char) (w : World)
    (c : Config) :
    (TrimSpace c.CorrelationID ≠ "" → resolveCorrelationID w c = TrimSpace c.CorrelationID) ∧
    (TrimSpace c.CorrelationID = "" →
      resolveCorrelationID w c = uuidNewString w.random ∧
        resolveCorrelationID w c ≠ c.CorrelationID) ∧
    isUUIDv4 (uuidNewString w.random) = true ∧
    resolveCorrelationID w { c with CorrelationID := "abc-123" } = "abc-123" ∧
    (∀ name body contentType cid,
      Event.sendMessage name body contentType cid ∈ (runPush codec caseTable w c).2 →
        cid = resolveCorrelationID w c) ∧
    (∀ line, Event.print line ∈ (runPush codec caseTable w c).2 →
      line = "Mensagem enviada com sucesso para " ++ (resolveDestination caseTable c).2 ++ ": " ++
        (resolveDestination caseTable c).1 ++ " (correlationId=" ++ resolveCorrelationID w c ++
        ")\n") ∧
    ((runPush codec caseTable w c).1 = none →
      ∃ name body, Event.sendMessage name body "application/json" (resolveCorrelationID w c)
        ∈ (runPush codec caseTable w c).2) := by
  refine ⟨?_, ?_, uuidNewString_isUUIDv4 w.random, ?_, ?_, ?_, ?_⟩
  · intro h
    simp [resolveCorrelationID, h]
  · intro h
    have hr : resolveCorrelationID w c = uuidNewString w.random := by
      simp [resolveCorrelationID, h]
    refine ⟨hr, ?_⟩
    rw [hr]
    intro heq
    obtain ⟨ch, rest, hd, hsp⟩ := uuidNewString_head_not_space w.random
    have hall := (TrimSpace_eq_empty_iff c.CorrelationID).mp h
    rw [← heq, hd] at hall
    have := hall ch (List.mem_cons_self _ _)
    rw [hsp] at this
    exact absurd this (by decide)
  · have h1 : TrimSpace "abc-123" = "abc-123" := by decide
    have h2 : ("abc-123" : String) ≠ "" := by decide
    simp [resolveCorrelationID, h1, h2]
  · intro name body contentType cid hmem
    rcases runPush_trace_cases codec caseTable w c _ hmem with h | h | h | h | h
    · simp [Event.stage] at h
    · simp at h
    · simp at h
    · obtain ⟨b, _, hb⟩ := h
      injection hb
    · simp at h
  · intro line hmem
    rcases runPush_trace_cases codec caseTable w c _ hmem with h | h | h | h | h
    · simp [Event.stage] at h
    · simp at h
    · simp at h
    · obtain ⟨b, _, hb⟩ := h
      simp at hb
    · injection h
  · intro h
    obtain ⟨body, _, hs, _⟩ := runPush_success_trace codec caseTable w c h
    exact ⟨_, body, hs⟩

/-- C9, amended: for an accepted configuration the name the sender is opened
on is the trimmed `Destination` in unified mode, with the kind read from the
type, and in legacy mode the trimmed value of the one of `Queue` and `Topic`
that is set, with the kind of that field; a value without white space around
it is used as it is. -/
theorem destination_name_spec (codec : NumCodec) (caseTable : Char → Char) (w : World)
    (c : Config) (hv : validateArgs caseTable c = none) :
    (c.Destination ≠ "" →
      (resolveDestination caseTable c).1 = TrimSpace c.Destination ∧
      (resolveDestination caseTable c).2 =
        (if ToLower caseTable c.Type_ = "queue" then "fila" else "tópico")) ∧
    (c.Destination = "" → c.Queue ≠ "" →
      c.Topic = "" ∧ resolveDestination caseTable c = (TrimSpace c.Queue, "fila")) ∧
    (c.Destination = "" → c.Queue = "" →
      c.Topic ≠ "" ∧ resolveDestination caseTable c = (TrimSpace c.Topic, "tópico")) ∧
    (∀ s, noOuterSpace s → TrimSpace s = s) ∧
    (∀ n, Event.newSender n ∈ (runPush codec caseTable w c).2 →
      n = (resolveDestination caseTable c).1) ∧
    ((runPush codec caseTable w c).1 = none →
      Event.newSender (resolveDestination caseTable c).1 ∈ (runPush codec caseTable w c).2) := by
  have hacc := (validateArgs_none_iff caseTable c).1 hv
  refine ⟨?_, ?_, ?_, TrimSpace_eq_self, ?_, ?_⟩
  · intro hd
    by_cases hq : ToLower caseTable c.Type_ = "queue" <;> simp [resolveDestination, hd, hq]
  · intro hd hq
    rcases hacc.2 with h | h
    · exact absurd hd h.1
    · rcases h.2.2 with h2 | h2
      · exact ⟨h2.2, by simp [resolveDestination, hd, hq]⟩
      · exact absurd h2.1 hq
  · intro hd hq
    rcases hacc.2 with h | h
    · exact absurd hd h.1
    · rcases h.2.2 with h2 | h2
      · exact absurd hq h2.1
      · exact ⟨h2.2, by simp [resolveDestination, hd, hq]⟩
  · intro n hmem
    rcases runPush_trace_cases codec caseTable w c _ hmem with h | h | h | h | h
    · simp [Event.stage] at h
    · injection h
    · simp at h
    · obtain ⟨b, _, hb⟩ := h
      simp at hb
    · simp at h
  · intro h
    obtain ⟨body, _, _, hs, _⟩ := runPush_success_trace codec caseTable w c h
    exact hs

theorem destination_name_spec_witness :
    (resolveDestination id ⟨"", "", " orders ", "Topic", "p.json", ""⟩).1 = TrimSpace " orders " ∧
      (resolveDestination id ⟨"", "", " orders ", "Topic", "p.json", ""⟩).2 = "tópico" :=
  (destination_name_spec smallIntCodec id (worldWithPayload "null") ⟨"", "", " orders ", "Topic", "p.json", ""⟩
    (by decide)).1 (by decide)

/-! ## The JSON decoder and encoder -/

theorem prepend_some (c : Char) (s rest : List Char) (r : Option (List Char × List Char))
    (h : r = some (s, rest)) : prepend c r = some (c :: s, rest) := by
  subst h
  rfl

theorem hexVal_hexDigit (n : Nat) (h : n < 16) : hexVal (hexDigit n) = some n := by
  interval_cases n <;> decide

theorem char_ne_of_toNat_ne (c d : Char) (h : c.toNat ≠ d.toNat) : c ≠ d := by
  intro hcd
  exact h (by rw [hcd])

theorem scanString_escapeChar (c : Char) (tail s rest : List Char) (fuel : Nat)
    (ih : scanString fuel tail = some (s, rest)) :
    scanString (fuel + 1) (escapeChar c ++ tail) = some (c :: s, rest) := by
  have hq0 : ('\"' : Char).toNat = 34 := by decide
  have hb0 : ('\\' : Char).toNat = 92 := by decide
  unfold escapeChar
  simp only
  by_cases h128 : c.toNat < 128
  · simp only [h128, if_true]
    by_cases hsafe : htmlSafe c = true
    · simp only [hsafe, if_true, List.singleton_append]
      simp only [htmlSafe, Bool.and_eq_true, decide_eq_true_eq, Bool.not_eq_true',
        Bool.or_eq_false_iff, beq_eq_false_iff_ne, ne_eq] at hsafe
      obtain ⟨⟨h32, _⟩, ⟨⟨⟨hq, _⟩, _⟩, _⟩, hb⟩ := hsafe
      rw [scanString]
      simp only [hq, hb, if_false]
      have : ¬ c.toNat < 32 := by omega
      simp only [this, if_false]
      exact prepend_some _ _ _ _ ih
    · simp only [hsafe, Bool.false_eq_true, if_false]
      have hu : ('\\' : Char) ≠ '\"' := by decide
      by_cases hbq : c = '\\' ∨ c = '\"'
      · simp only [hbq, if_true, List.cons_append, List.nil_append]
        rw [scanString]
        simp only [hu, if_false, if_true]
        have hcu : c ≠ 'u' := by
          rcases hbq with h | h <;> rw [h] <;> decide
        have hse : simpleEscape c = some c := by
          rcases hbq with h | h <;> rw [h] <;> decide
        simp only [scanEscape, hcu, if_false, hse, List.drop_one, List.tail_cons]
        exact prepend_some _ _ _ _ ih
      · simp only [hbq, if_false]
        have key : ∀ (e : Char) (n : Nat), c.toNat = n → e ≠ 'u' →
            simpleEscape e = some (Char.ofNat n) →
            scanString (fuel + 1) (['\\', e] ++ tail) = some (c :: s, rest) := by
          intro e n hn heu hse
          rw [List.cons_append, List.cons_append, List.nil_append, scanString]
          simp only [hu, if_false, if_true]
          simp only [scanEscape, heu, if_false, hse, List.drop_one, List.tail_cons]
          rw [char_eq_of_toNat c n hn]
          exact prepend_some _ _ _ _ ih
        by_cases h8 : c.toNat = 8
        · simp only [h8, if_true]
          exact key 'b' 8 h8 (by decide) (by decide)
        simp only [h8, if_false]
        by_cases h12 : c.toNat = 12
        · simp only [h12, if_true]
          exact key 'f' 12 h12 (by decide) (by decide)
        simp only [h12, if_false]
        by_cases h10 : c.toNat = 10
        · simp only [h10, if_true]
          exact key 'n' 10 h10 (by decide) (by decide)
        simp only [h10, if_false]
        by_cases h13 : c.toNat = 13
        · simp only [h13, if_true]
          exact key 'r' 13 h13 (by decide) (by decide)
        simp only [h13, if_false]
        by_cases h9 : c.toNat = 9
        · simp only [h9, if_true]
          exact key 't' 9 h9 (by decide) (by decide)
        simp only [h9, if_false, List.cons_append, List.nil_append]
        rw [scanString]
        simp only [hu, if_false, if_true]
        have h1 : hexVal (hexDigit (c.toNat / 16)) = some (c.toNat / 16) :=
          hexVal_hexDigit _ (by omega)
        have h2 : hexVal (hexDigit (c.toNat % 16)) = some (c.toNat % 16) :=
          hexVal_hexDigit _ (by omega)
        have h0 : hexVal '0' = some 0 := by decide
        have hh : hex4 '0' '0' (hexDigit (c.toNat / 16)) (hexDigit (c.toNat % 16))
            = some c.toNat := by
          simp only [hex4, h0, h1, h2]
          congr 1
          omega
        have hs : isSurrogate c.toNat = false := by
          simp only [isSurrogate, Bool.and_eq_false_iff, decide_eq_false_iff_not]
          omega
        simp only [scanEscape, if_true, hh, hs, Bool.false_eq_true, if_false, List.drop_succ_cons,
          List.drop_zero, Char.ofNat_toNat]
        exact prepend_some _ _ _ _ ih
  · simp only [h128, if_false]
    have hu : ('\\' : Char) ≠ '\"' := by decide
    by_cases hls : c.toNat = 0x2028 ∨ c.toNat = 0x2029
    · simp only [hls, if_true, List.cons_append, List.nil_append]
      rw [scanString]
      simp only [hu, if_false, if_true]
      have h2 : hexVal (hexDigit (c.toNat % 16)) = some (c.toNat % 16) :=
        hexVal_hexDigit _ (by omega)
      have h0 : hexVal '0' = some 0 := by decide
      have h22 : hexVal '2' = some 2 := by decide
      have hh : hex4 '2' '0' '2' (hexDigit (c.toNat % 16)) = some c.toNat := by
        simp only [hex4, h0, h22, h2]
        congr 1
        omega
      have hs : isSurrogate c.toNat = false := by
        simp only [isSurrogate, Bool.and_eq_false_iff, decide_eq_false_iff_not]
        omega
      simp only [scanEscape, if_true, hh, hs, Bool.false_eq_true, if_false, List.drop_succ_cons,
        List.drop_zero, Char.ofNat_toNat]
      exact prepend_some _ _ _ _ ih
    · simp only [hls, if_false, List.singleton_append]
      rw [scanString]
      have hq : c ≠ '\"' := char_ne_of_toNat_ne _ _ (by rw [hq0]; omega)
      have hb : c ≠ '\\' := char_ne_of_toNat_ne _ _ (by rw [hb0]; omega)
      have : ¬ c.toNat < 32 := by omega
      simp only [hq, hb, this, if_false]
      exact prepend_some _ _ _ _ ih

theorem escapeChar_length_pos (c : Char) : 1 ≤ (escapeChar c).length := by
  unfold escapeChar
  simp only
  repeat' split
  all_goals simp

theorem scanString_quoted (s rest : List Char) :
    ∀ fuel, (s.flatMap escapeChar).length + 1 ≤ fuel →
      scanString fuel (s.flatMap escapeChar ++ '\"' :: rest) = some (s, rest) := by
  induction s with
  | nil =>
    intro fuel h
    cases fuel with
    | zero => simp at h
    | succ f =>
      simp only [List.flatMap_nil, List.nil_append]
      rw [scanString]
      simp
  | cons c s ih =>
    intro fuel h
    simp only [List.flatMap_cons, List.length_append] at h
    have hpos := escapeChar_length_pos c
    cases fuel with
    | zero => omega
    | succ f =>
      simp only [List.flatMap_cons, List.append_assoc]
      exact scanString_escapeChar c _ s rest f (ih f (by omega))

theorem takeWhile_append_stop (p : Char → Bool) (l rest : List Char)
    (h : ∀ c, rest.head? = some c → p c = false) :
    (l ++ rest).takeWhile p = l.takeWhile p ∧
      (l ++ rest).dropWhile p = l.dropWhile p ++ rest := by
  induction l with
  | nil =>
    cases rest with
    | nil => simp
    | cons c r =>
      have := h c rfl
      simp [List.takeWhile, List.dropWhile, this]
  | cons a l ih =>
    by_cases ha : p a = true
    · simp [List.takeWhile, List.dropWhile, ha, ih.1, ih.2]
    · simp [List.takeWhile, List.dropWhile, ha]

theorem scanExponent_append (acc l rest r l1 : List Char) (hs : stopsNumber rest)
    (h : scanExponent acc l = some (r, l1)) :
    scanExponent acc (l ++ rest) = some (r, l1 ++ rest) := by
  have hd : ∀ c, rest.head? = some c → isDigit c = false := fun c hc => (hs c hc).1
  unfold scanExponent at h ⊢
  cases l with
  | nil =>
    simp only [Option.some.injEq, Prod.mk.injEq] at h
    obtain ⟨h1, h2⟩ := h
    subst h1 h2
    cases rest with
    | nil => rfl
    | cons c t =>
      have := hs c rfl
      simp [this.2.2.1, this.2.2.2]
  | cons e r1 =>
    simp only [List.cons_append]
    by_cases he : e = 'e' ∨ e = 'E'
    · simp only [he, if_true] at h ⊢
      cases r1 with
      | nil => simp at h
      | cons sg r2 =>
        simp only [List.cons_append]
        by_cases hsg : sg = '+' ∨ sg = '-'
        · simp only [hsg, if_true] at h ⊢
          obtain ⟨t1, t2⟩ := takeWhile_append_stop isDigit r2 rest hd
          rw [t1, t2]
          split at h
          · simp at h
          · rename_i hne
            simp only [hne, Bool.false_eq_true, if_false]
            simp only [Option.some.injEq, Prod.mk.injEq] at h
            rw [← h.1, ← h.2]
        · simp only [hsg, if_false] at h ⊢
          obtain ⟨t1, t2⟩ := takeWhile_append_stop isDigit (sg :: r2) rest hd
          rw [List.cons_append] at t1 t2
          rw [t1, t2]
          split at h
          · simp at h
          · rename_i hne
            simp only [hne, Bool.false_eq_true, if_false]
            simp only [Option.some.injEq, Prod.mk.injEq] at h
            rw [← h.1, ← h.2]
    · simp only [he, if_false] at h ⊢
      simp only [Option.some.injEq, Prod.mk.injEq] at h
      rw [← h.1, ← h.2]
      rfl

theorem scanFraction_append (acc l rest r l1 : List Char) (hs : stopsNumber rest)
    (h : scanFraction acc l = some (r, l1)) :
    scanFraction acc (l ++ rest) = some (r, l1 ++ rest) := by
  have hd : ∀ c, rest.head? = some c → isDigit c = false := fun c hc => (hs c hc).1
  unfold scanFraction at h ⊢
  cases l with
  | nil =>
    simp only [Option.some.injEq, Prod.mk.injEq] at h
    obtain ⟨h1, h2⟩ := h
    subst h1 h2
    cases rest with
    | nil => rfl
    | cons c t =>
      have := hs c rfl
      simp only [List.nil_append, this.2.1, if_false]
      exact scanExponent_append acc [] (c :: t) acc [] hs rfl
  | cons d r1 =>
    simp only [List.cons_append]
    by_cases hdot : d = '.'
    · simp only [hdot, if_true] at h ⊢
      obtain ⟨t1, t2⟩ := takeWhile_append_stop isDigit r1 rest hd
      rw [t1, t2]
      split at h
      · simp at h
      · rename_i hne
        simp only [hne, Bool.false_eq_true, if_false]
        exact scanExponent_append _ _ rest r l1 hs h
    · simp only [hdot, if_false] at h ⊢
      exact scanExponent_append acc (d :: r1) rest r l1 hs h

theorem scanInteger_append (acc l rest r l1 : List Char) (hs : stopsNumber rest)
    (h : scanInteger acc l = some (r, l1)) :
    scanInteger acc (l ++ rest) = some (r, l1 ++ rest) := by
  have hd : ∀ c, rest.head? = some c → isDigit c = false := fun c hc => (hs c hc).1
  unfold scanInteger at h ⊢
  cases l with
  | nil => simp at h
  | cons d r1 =>
    simp only [List.cons_append]
    by_cases hz : d = '0'
    · simp only [hz, if_true] at h ⊢
      exact scanFraction_append _ r1 rest r l1 hs h
    · simp only [hz, if_false] at h ⊢
      by_cases hdig : isDigit d = true
      · simp only [hdig, if_true] at h ⊢
        obtain ⟨t1, t2⟩ := takeWhile_append_stop isDigit r1 rest hd
        rw [t1, t2]
        exact scanFraction_append _ _ rest r l1 hs h
      · simp only [hdig, Bool.false_eq_true, if_false] at h
        simp at h

theorem scanNumber_append (l rest r l1 : List Char) (hs : stopsNumber rest)
    (h : scanNumber l = some (r, l1)) :
    scanNumber (l ++ rest) = some (r, l1 ++ rest) := by
  unfold scanNumber at h ⊢
  cases l with
  | nil => simp at h
  | cons c r1 =>
    simp only [List.cons_append]
    by_cases hm : c = '-'
    · simp only [hm, if_true] at h ⊢
      exact scanInteger_append _ r1 rest r l1 hs h
    · simp only [hm, if_false] at h ⊢
      exact scanInteger_append [] (c :: r1) rest r l1 hs h

theorem tokenize_skip (ws : List Char) (hws : ∀ c ∈ ws, isJSONSpace c = true) :
    ∀ fuel text, (ws ++ text).length ≤ fuel →
      tokenize fuel (ws ++ text) = tokenize (fuel - ws.length) text := by
  induction ws with
  | nil => intro fuel text _; simp
  | cons c ws ih =>
    intro fuel text h
    cases fuel with
    | zero => simp at h
    | succ f =>
      have hc := hws c (List.mem_cons_self _ _)
      rw [List.cons_append, tokenize]
      simp only [hc, if_true, List.length_cons, Nat.add_sub_add_right]
      exact ih (fun d hd => hws d (List.mem_cons_of_mem _ hd)) f text (by simpa using h)

theorem tokenize_spaces (ws : List Char) (hws : ∀ c ∈ ws, isJSONSpace c = true) (fuel : Nat)
    (h : ws.length ≤ fuel) : tokenize fuel ws = some [] := by
  have := tokenize_skip ws hws fuel [] (by simpa using h)
  rw [List.append_nil] at this
  rw [this]
  cases (fuel - ws.length) <;> rfl

theorem scanNumber_head (c : Char) (l r l1 : List Char) (h : scanNumber (c :: l) = some (r, l1)) :
    c = '-' ∨ isDigit c = true := by
  unfold scanNumber at h
  by_cases hm : c = '-'
  · exact Or.inl hm
  · right
    simp only [hm, if_false] at h
    unfold scanInteger at h
    by_cases hz : c = '0'
    · rw [hz]; decide
    · simp only [hz, if_false] at h
      by_cases hd : isDigit c = true
      · exact hd
      · simp [hd] at h

theorem nextToken_number (c : Char) (rest : List Char)
    (hc : c = '-' ∨ isDigit c = true) :
    nextToken c rest =
      match scanNumber (c :: rest) with
      | some (lit, rest1) => some (.num lit, rest1)
      | none => none := by
  have hn : c.toNat = 45 ∨ (48 ≤ c.toNat ∧ c.toNat ≤ 57) := by
    rcases hc with h | h
    · left; rw [h]; decide
    · right
      simpa [isDigit] using h
  have ne : ∀ d : Char, (d.toNat < 45 ∨ 57 < d.toNat ∨ (45 < d.toNat ∧ d.toNat < 48)) → c ≠ d := by
    intro d hd
    apply char_ne_of_toNat_ne
    omega
  unfold nextToken
  simp only [if_false, ne '\x7b' (by decide), ne '\x7d' (by decide),
    ne '[' (by decide), ne ']' (by decide), ne ':' (by decide), ne ',' (by decide),
    ne '\"' (by decide), ne 't' (by decide), ne 'f' (by decide), ne 'n' (by decide)]

theorem isJSONSpace_number (c : Char) (hc : c = '-' ∨ isDigit c = true) :
    isJSONSpace c = false := by
  have hn : c.toNat = 45 ∨ (48 ≤ c.toNat ∧ c.toNat ≤ 57) := by
    rcases hc with h | h
    · left; rw [h]; decide
    · right
      simpa [isDigit] using h
  have ne : ∀ d : Char, d.toNat < 45 → c ≠ d := by
    intro d hd
    apply char_ne_of_toNat_ne
    omega
  simp only [isJSONSpace, Bool.or_eq_false_iff, beq_eq_false_iff_ne, ne_eq]
  exact ⟨⟨⟨ne _ (by decide), ne _ (by decide)⟩, ne _ (by decide)⟩, ne _ (by decide)⟩

theorem space_stops (c : Char) (h : isJSONSpace c = true) :
    isDigit c = false ∧ c ≠ '.' ∧ c ≠ 'e' ∧ c ≠ 'E' := by
  simp only [isJSONSpace, Bool.or_eq_true, beq_iff_eq] at h
  rcases h with ((h | h) | h) | h <;> subst h <;> decide

theorem stopsNumber_padded (rest : List (List Char × Token)) (trail : List Char)
    (hws : ∀ p ∈ rest, ∀ c ∈ p.1, isJSONSpace c = true)
    (htr : ∀ c ∈ trail, isJSONSpace c = true)
    (hcl : ∀ t, (rest.map Prod.snd).head? = some t → isCloser t = true) :
    stopsNumber (renderPadded rest ++ trail) := by
  intro c hc
  cases rest with
  | nil =>
    simp only [renderPadded, List.nil_append] at hc
    cases trail with
    | nil => simp at hc
    | cons d t =>
      simp only [List.head?_cons, Option.some.injEq] at hc
      subst hc
      exact space_stops _ (htr _ (List.mem_cons_self _ _))
  | cons p rest =>
    obtain ⟨ws, t⟩ := p
    cases ws with
    | cons d ws =>
      simp only [renderPadded, List.cons_append, List.head?_cons, Option.some.injEq] at hc
      subst hc
      exact space_stops _ (hws _ (List.mem_cons_self _ _) _ (List.mem_cons_self _ _))
    | nil =>
      have hcl2 := hcl t rfl
      cases t <;> simp [isCloser] at hcl2 <;>
        simp only [renderPadded, tokenText, List.nil_append, List.cons_append, List.head?_cons,
          Option.some.injEq] at hc <;> subst hc <;> decide

theorem tokenize_renderPadded (ptoks : List (List Char × Token)) (trail : List Char)
    (htr : ∀ c ∈ trail, isJSONSpace c = true) :
    (∀ p ∈ ptoks, ∀ c ∈ p.1, isJSONSpace c = true) →
    numsDelimited (ptoks.map Prod.snd) →
    ∀ fuel, (renderPadded ptoks ++ trail).length ≤ fuel →
      tokenize fuel (renderPadded ptoks ++ trail) = some (ptoks.map Prod.snd) := by
  induction ptoks with
  | nil =>
    intro _ _ fuel h
    exact tokenize_spaces trail htr fuel (by simpa [renderPadded] using h)
  | cons p rest ih =>
    intro hws hnd fuel h
    obtain ⟨ws, t⟩ := p
    have hws1 : ∀ c ∈ ws, isJSONSpace c = true := hws _ (List.mem_cons_self _ _)
    have hws2 : ∀ p ∈ rest, ∀ c ∈ p.1, isJSONSpace c = true :=
      fun p hp => hws p (List.mem_cons_of_mem _ hp)
    have hnd2 : numsDelimited (rest.map Prod.snd) := by
      cases t <;> simp only [List.map_cons, numsDelimited] at hnd <;>
        first | exact hnd | exact hnd.2.2
    simp only [renderPadded, List.append_assoc, List.map_cons]
    simp only [renderPadded, List.append_assoc, List.length_append] at h
    rw [tokenize_skip ws hws1 fuel _ (by simp only [List.length_append]; omega)]
    generalize hR : renderPadded rest ++ trail = R at h ⊢
    have ihR : ∀ f, R.length ≤ f → tokenize f R = some (rest.map Prod.snd) := by
      intro f hf
      rw [← hR] at hf ⊢
      exact ih hws2 hnd2 f hf
    have step : ∀ (c : Char) (tl : List Char) (f : Nat),
        isJSONSpace c = false →
        nextToken c (tl ++ R) = some (t, R) → (tl ++ R).length ≤ f →
        tokenize (f + 1) (c :: (tl ++ R)) = some (t :: rest.map Prod.snd) := by
      intro c tl f hsp hnt hf
      rw [tokenize]
      simp only [hsp, Bool.false_eq_true, if_false, hnt]
      rw [ihR f (by simp only [List.length_append] at hf; omega)]
      rfl
    have hlen : ∀ (c : Char) (tl : List Char), tokenText t = c :: tl →
        ∃ f, fuel - ws.length = f + 1 ∧ (tl ++ R).length ≤ f := by
      intro c tl htt
      have hRlen : R.length = (renderPadded rest).length + trail.length := by
        rw [← hR, List.length_append]
      rw [htt] at h
      simp only [List.length_cons, List.length_append] at h ⊢
      exact ⟨fuel - ws.length - 1, by omega, by omega⟩
    cases t with
    | beginObject =>
      obtain ⟨f, hf, hle⟩ := hlen _ [] rfl
      rw [hf]
      exact step _ [] f (by decide) rfl hle
    | endObject =>
      obtain ⟨f, hf, hle⟩ := hlen _ [] rfl
      rw [hf]
      exact step _ [] f (by decide) rfl hle
    | beginArray =>
      obtain ⟨f, hf, hle⟩ := hlen _ [] rfl
      rw [hf]
      exact step _ [] f (by decide) rfl hle
    | endArray =>
      obtain ⟨f, hf, hle⟩ := hlen _ [] rfl
      rw [hf]
      exact step _ [] f (by decide) rfl hle
    | colon =>
      obtain ⟨f, hf, hle⟩ := hlen _ [] rfl
      rw [hf]
      exact step _ [] f (by decide) rfl hle
    | comma =>
      obtain ⟨f, hf, hle⟩ := hlen _ [] rfl
      rw [hf]
      exact step _ [] f (by decide) rfl hle
    | litTrue =>
      obtain ⟨f, hf, hle⟩ := hlen _ ['r', 'u', 'e'] rfl
      rw [hf]
      exact step _ ['r', 'u', 'e'] f (by decide) rfl hle
    | litFalse =>
      obtain ⟨f, hf, hle⟩ := hlen _ ['a', 'l', 's', 'e'] rfl
      rw [hf]
      exact step _ ['a', 'l', 's', 'e'] f (by decide) rfl hle
    | litNull =>
      obtain ⟨f, hf, hle⟩ := hlen _ ['u', 'l', 'l'] rfl
      rw [hf]
      exact step _ ['u', 'l', 'l'] f (by decide) rfl hle
    | str s =>
      obtain ⟨f, hf, hle⟩ := hlen _ (s.flatMap escapeChar ++ ['\"']) rfl
      rw [hf]
      refine step _ (s.flatMap escapeChar ++ ['\"']) f (by decide) ?_ hle
      have hsc := scanString_quoted s R (s.flatMap escapeChar ++ ['\"'] ++ R).length
        (by simp only [List.length_append, List.length_cons, List.length_nil]; omega)
      have hq : ('\"' : Char) ≠ '\x7b' ∧ ('\"' : Char) ≠ '\x7d' ∧ ('\"' : Char) ≠ '[' ∧
          ('\"' : Char) ≠ ']' ∧ ('\"' : Char) ≠ ':' ∧ ('\"' : Char) ≠ ',' := by decide
      unfold nextToken
      simp only [hq.1, hq.2.1, hq.2.2.1, hq.2.2.2.1, hq.2.2.2.2.1, hq.2.2.2.2.2, if_false,
        if_true]
      rw [List.append_assoc, List.singleton_append] at hsc ⊢
      rw [hsc]
    | num lit =>
      simp only [List.map_cons, numsDelimited] at hnd
      obtain ⟨hvalid, hcl, _⟩ := hnd
      cases lit with
      | nil => simp [validNumber, scanNumber] at hvalid
      | cons c tl =>
        obtain ⟨f, hf, hle⟩ := hlen c tl rfl
        rw [hf]
        have hc := scanNumber_head c tl _ _ hvalid
        refine step c tl f (isJSONSpace_number c hc) ?_ hle
        rw [nextToken_number c _ hc]
        have hstop : stopsNumber R := by
          rw [← hR]
          exact stopsNumber_padded rest trail hws2 htr hcl
        have := scanNumber_append (c :: tl) R _ _ hstop hvalid
        rw [List.cons_append] at this
        rw [this]
        rfl

theorem render_append (a b : List Token) : render (a ++ b) = render a ++ render b := by
  induction a with
  | nil => rfl
  | cons t a ih => simp [render, ih]

mutual
theorem serialize_eq_render (codec : NumCodec) :
    ∀ v : JValue codec.F, serialize codec v = (tokensOf codec v).map render
  | .null => rfl
  | .bool true => rfl
  | .bool false => rfl
  | .num f => by
    rw [serialize, tokensOf]
    cases codec.formatFloat f <;> simp [Except.map, render, tokenText]
  | .str s => by
    simp [serialize, tokensOf, Except.map, render, tokenText]
  | .arr xs => by
    rw [serialize, tokensOf, serializeElements_eq_render codec xs]
    cases elementTokens codec xs <;>
      simp [Except.map, render, tokenText, render_append]
  | .obj m => by
    rw [serialize, tokensOf, serializeMembers_eq_render codec m]
    cases memberTokens codec m <;>
      simp [Except.map, render, tokenText, render_append]
theorem serializeElements_eq_render (codec : NumCodec) :
    ∀ xs : List (JValue codec.F),
      serializeElements codec xs = (elementTokens codec xs).map render
  | [] => rfl
  | [v] => by
    rw [serializeElements, elementTokens]
    exact serialize_eq_render codec v
  | v :: w :: rest => by
    rw [serializeElements, elementTokens, serialize_eq_render codec v,
      serializeElements_eq_render codec (w :: rest)]
    cases tokensOf codec v <;> cases elementTokens codec (w :: rest) <;>
      simp [Except.map, render, tokenText, render_append]
theorem serializeMembers_eq_render (codec : NumCodec) :
    ∀ m : List (List Char × JValue codec.F),
      serializeMembers codec m = (memberTokens codec m).map render
  | [] => rfl
  | [(k, v)] => by
    rw [serializeMembers, memberTokens, serialize_eq_render codec v]
    cases tokensOf codec v <;> simp [Except.map, render, tokenText]
  | (k, v) :: e :: rest => by
    rw [serializeMembers, memberTokens, serialize_eq_render codec v,
      serializeMembers_eq_render codec (e :: rest)]
    cases tokensOf codec v <;> cases memberTokens codec (e :: rest) <;>
      simp [Except.map, render, tokenText, render_append]
end

theorem numsDelimited_cons (t : Token) (rest : List Token) (h : ∀ lit, t ≠ .num lit) :
    numsDelimited (t :: rest) ↔ numsDelimited rest := by
  cases t <;> simp only [numsDelimited]
  exact absurd rfl (h _)

mutual
theorem numsDelimited_tokensOf (codec : NumCodec) (hc : codec.RoundTrips) :
    ∀ (v : JValue codec.F) (toks : List Token), tokensOf codec v = .ok toks →
      ∀ suffix, numsDelimited suffix → closerHead suffix → numsDelimited (toks ++ suffix)
  | .null, toks, h, suffix, hs, _ => by
    simp only [tokensOf, Except.ok.injEq] at h
    subst h
    exact hs
  | .bool true, toks, h, suffix, hs, _ => by
    simp only [tokensOf, Except.ok.injEq] at h
    subst h
    exact hs
  | .bool false, toks, h, suffix, hs, _ => by
    simp only [tokensOf, Except.ok.injEq] at h
    subst h
    exact hs
  | .str s, toks, h, suffix, hs, _ => by
    simp only [tokensOf, Except.ok.injEq] at h
    subst h
    exact hs
  | .num f, toks, h, suffix, hs, hcl => by
    rw [tokensOf] at h
    cases hf : codec.formatFloat f with
    | error e => simp [hf] at h
    | ok lit =>
      simp only [hf, Except.ok.injEq] at h
      subst h
      exact ⟨(hc f lit hf).1, hcl, hs⟩
  | .arr xs, toks, h, suffix, hs, hcl => by
    rw [tokensOf] at h
    cases hb : elementTokens codec xs with
    | error e => simp [hb] at h
    | ok body =>
      simp only [hb, Except.ok.injEq] at h
      subst h
      simp only [List.cons_append, List.append_assoc, List.singleton_append]
      rw [numsDelimited_cons _ _ (by intro lit; simp)]
      exact numsDelimited_elementTokens codec hc xs body hb _
        ((numsDelimited_cons _ _ (by intro lit; simp)).2 hs) (by intro t ht; simp at ht; subst ht; rfl)
  | .obj m, toks, h, suffix, hs, hcl => by
    rw [tokensOf] at h
    cases hb : memberTokens codec m with
    | error e => simp [hb] at h
    | ok body =>
      simp only [hb, Except.ok.injEq] at h
      subst h
      simp only [List.cons_append, List.append_assoc, List.singleton_append]
      rw [numsDelimited_cons _ _ (by intro lit; simp)]
      exact numsDelimited_memberTokens codec hc m body hb _
        ((numsDelimited_cons _ _ (by intro lit; simp)).2 hs) (by intro t ht; simp at ht; subst ht; rfl)
theorem numsDelimited_elementTokens (codec : NumCodec) (hc : codec.RoundTrips) :
    ∀ (xs : List (JValue codec.F)) (toks : List Token), elementTokens codec xs = .ok toks →
      ∀ suffix, numsDelimited suffix → closerHead suffix → numsDelimited (toks ++ suffix)
  | [], toks, h, suffix, hs, _ => by
    simp only [elementTokens, Except.ok.injEq] at h
    subst h
    exact hs
  | [v], toks, h, suffix, hs, hcl => by
    rw [elementTokens] at h
    exact numsDelimited_tokensOf codec hc v toks h suffix hs hcl
  | v :: w :: rest, toks, h, suffix, hs, hcl => by
    rw [elementTokens] at h
    cases ha : tokensOf codec v with
    | error e => simp [ha] at h
    | ok a =>
      cases hb : elementTokens codec (w :: rest) with
      | error e => simp [ha, hb] at h
      | ok b =>
        simp only [ha, hb, Except.ok.injEq] at h
        subst h
        rw [List.append_assoc, List.cons_append]
        exact numsDelimited_tokensOf codec hc v a ha _
          ((numsDelimited_cons _ _ (by intro lit; simp)).2
            (numsDelimited_elementTokens codec hc (w :: rest) b hb suffix hs hcl))
          (by intro t ht; simp at ht; subst ht; rfl)
theorem numsDelimited_memberTokens (codec : NumCodec) (hc : codec.RoundTrips) :
    ∀ (m : List (List Char × JValue codec.F)) (toks : List Token),
      memberTokens codec m = .ok toks →
      ∀ suffix, numsDelimited suffix → closerHead suffix → numsDelimited (toks ++ suffix)
  | [], toks, h, suffix, hs, _ => by
    simp only [memberTokens, Except.ok.injEq] at h
    subst h
    exact hs
  | [(k, v)], toks, h, suffix, hs, hcl => by
    rw [memberTokens] at h
    cases ha : tokensOf codec v with
    | error e => simp [ha] at h
    | ok a =>
      simp only [ha, Except.ok.injEq] at h
      subst h
      simp only [List.cons_append]
      rw [numsDelimited_cons _ _ (by intro lit; simp),
        numsDelimited_cons _ _ (by intro lit; simp)]
      exact numsDelimited_tokensOf codec hc v a ha suffix hs hcl
  | (k, v) :: e :: rest, toks, h, suffix, hs, hcl => by
    rw [memberTokens] at h
    cases ha : tokensOf codec v with
    | error e => simp [ha] at h
    | ok a =>
      cases hb : memberTokens codec (e :: rest) with
      | error e => simp [ha, hb] at h
      | ok b =>
        simp only [ha, hb, Except.ok.injEq] at h
        subst h
        simp only [List.cons_append, List.append_assoc]
        rw [numsDelimited_cons _ _ (by intro lit; simp),
          numsDelimited_cons _ _ (by intro lit; simp)]
        exact numsDelimited_tokensOf codec hc v a ha _
          ((numsDelimited_cons _ _ (by intro lit; simp)).2
            (numsDelimited_memberTokens codec hc (e :: rest) b hb suffix hs hcl))
          (by intro t ht; simp at ht; subst ht; rfl)
end

theorem char_eq_of_toNat_eq (a b : Char) (h : a.toNat = b.toNat) : a = b := by
  rw [← Char.ofNat_toNat a, ← Char.ofNat_toNat b, h]

theorem keyLess_irrefl : ∀ a : List Char, keyLess a a = false
  | [] => rfl
  | c :: cs => by
    simp [keyLess, keyLess_irrefl cs]

theorem keyLess_trans : ∀ a b c : List Char,
    keyLess a b = true → keyLess b c = true → keyLess a c = true
  | [], [], _, h, _ => by simp [keyLess] at h
  | [], _ :: _, [], _, h => by simp [keyLess] at h
  | [], _ :: _, _ :: _, _, _ => by simp [keyLess]
  | _ :: _, [], _, h, _ => by simp [keyLess] at h
  | _ :: _, _ :: _, [], _, h => by simp [keyLess] at h
  | x :: xs, y :: ys, z :: zs, h1, h2 => by
    simp only [keyLess, Bool.or_eq_true, decide_eq_true_eq, Bool.and_eq_true, beq_iff_eq] at h1 h2 ⊢
    rcases h1 with h1 | ⟨h1, h1t⟩
    · rcases h2 with h2 | ⟨h2, _⟩
      · left; omega
      · left; rw [← h2]; exact h1
    · rcases h2 with h2 | ⟨h2, h2t⟩
      · left; rw [h1]; exact h2
      · right
        exact ⟨h1.trans h2, keyLess_trans xs ys zs h1t h2t⟩

theorem keyLess_total : ∀ a b : List Char, keyLess a b = false → a ≠ b → keyLess b a = true
  | [], [], _, h => absurd rfl h
  | [], _ :: _, h, _ => by simp [keyLess] at h
  | _ :: _, [], _, _ => by simp [keyLess]
  | x :: xs, y :: ys, h, hne => by
    simp only [keyLess, Bool.or_eq_false_iff, decide_eq_false_iff_not, Bool.and_eq_false_iff,
      beq_eq_false_iff_ne, ne_eq] at h
    simp only [keyLess, Bool.or_eq_true, decide_eq_true_eq, Bool.and_eq_true, beq_iff_eq]
    obtain ⟨h1, h2⟩ := h
    by_cases hxy : x = y
    · right
      subst hxy
      refine ⟨rfl, ?_⟩
      rcases h2 with h2 | h2
      · exact absurd rfl h2
      · exact keyLess_total xs ys h2 (by intro h; apply hne; rw [h])
    · left
      have : x.toNat ≠ y.toNat := fun h => hxy (char_eq_of_toNat_eq _ _ h)
      omega

theorem keyLess_asymm (a b : List Char) (h : keyLess a b = true) : keyLess b a = false := by
  cases hba : keyLess b a with
  | false => rfl
  | true =>
    have := keyLess_trans a b a h hba
    rw [keyLess_irrefl] at this
    exact absurd this (by decide)

theorem keyLess_ne (a b : List Char) (h : keyLess a b = true) : a ≠ b := by
  intro hab
  subst hab
  rw [keyLess_irrefl] at h
  exact absurd h (by decide)

theorem keysAscending_cons {V : Type} (k : List Char) (v : V) (m : List (List Char × V)) :
    keysAscending ((k, v) :: m) ↔
      (∀ p, m.head? = some p → keyLess k p.1 = true) ∧ keysAscending m := by
  cases m with
  | nil => simp [keysAscending]
  | cons q m =>
    obtain ⟨k2, v2⟩ := q
    simp [keysAscending]

theorem keysAscending_head_lt {V : Type} (k : List Char) (v : V) :
    ∀ m : List (List Char × V), keysAscending ((k, v) :: m) → ∀ p ∈ m, keyLess k p.1 = true
  | [], _, p, hp => by simp at hp
  | (k2, v2) :: m, h, p, hp => by
    simp only [keysAscending] at h
    rcases List.mem_cons.mp hp with hp | hp
    · rw [hp]; exact h.1
    · have h2 := keysAscending_head_lt k2 v2 m h.2 p hp
      exact keyLess_trans _ _ _ h.1 h2

theorem mapInsert_append_last {V : Type} (k : List Char) (v : V) :
    ∀ acc : List (List Char × V), keysAscending (acc ++ [(k, v)]) →
      mapInsert k v acc = acc ++ [(k, v)]
  | [], _ => rfl
  | (k1, v1) :: acc, h => by
    have hlt : keyLess k1 k = true :=
      keysAscending_head_lt k1 v1 (acc ++ [(k, v)]) h (k, v) (by simp)
    have htail : keysAscending (acc ++ [(k, v)]) :=
      ((keysAscending_cons k1 v1 _).1 h).2
    simp only [mapInsert, keyLess_asymm _ _ hlt, Bool.false_eq_true, if_false,
      (keyLess_ne _ _ hlt).symm, List.cons_append]
    rw [mapInsert_append_last k v acc htail]

theorem mapInsert_head {V : Type} (k : List Char) (v : V) (m : List (List Char × V))
    (p : List Char × V) (h : (mapInsert k v m).head? = some p) :
    p.1 = k ∨ ∃ q, m.head? = some q ∧ q.1 = p.1 := by
  cases m with
  | nil =>
    simp only [mapInsert, List.head?_cons, Option.some.injEq] at h
    left; rw [← h]
  | cons q m =>
    obtain ⟨k1, v1⟩ := q
    simp only [mapInsert] at h
    split at h
    · simp only [List.head?_cons, Option.some.injEq] at h
      left; rw [← h]
    · split at h
      · simp only [List.head?_cons, Option.some.injEq] at h
        left; rw [← h]
      · simp only [List.head?_cons, Option.some.injEq] at h
        right
        exact ⟨(k1, v1), rfl, by rw [← h]⟩

theorem mapInsert_ascending {V : Type} (k : List Char) (v : V) :
    ∀ m : List (List Char × V), keysAscending m → keysAscending (mapInsert k v m)
  | [], _ => by simp [mapInsert, keysAscending]
  | (k1, v1) :: m, h => by
    have h' := (keysAscending_cons k1 v1 m).1 h
    simp only [mapInsert]
    split
    · rename_i hlt
      exact ⟨hlt, h⟩
    · rename_i hnlt
      split
      · rename_i heq
        subst heq
        exact (keysAscending_cons k v m).2 h'
      · rename_i hne
        have hlt : keyLess k1 k = true :=
          keyLess_total k k1 (by simpa using hnlt) hne
        rw [keysAscending_cons]
        refine ⟨?_, mapInsert_ascending k v m h'.2⟩
        intro p hp
        rcases mapInsert_head k v m p hp with hk | ⟨q, hq, hqp⟩
        · rw [hk]; exact hlt
        · rw [← hqp]; exact h'.1 q hq

theorem CanonMembers_mapInsert {F : Type} (k : List Char) (v : JValue F) (hv : Canon v) :
    ∀ m : List (List Char × JValue F), CanonMembers m → CanonMembers (mapInsert k v m)
  | [], _ => by
    simp only [mapInsert, CanonMembers]
    exact ⟨hv, trivial⟩
  | (k1, v1) :: m, h => by
    simp only [CanonMembers] at h
    simp only [mapInsert]
    split
    · exact ⟨hv, h.1, h.2⟩
    · split
      · exact ⟨hv, h.2⟩
      · exact ⟨h.1, CanonMembers_mapInsert k v hv m h.2⟩

theorem depthOfMembers_mapInsert {F : Type} (k : List Char) (v : JValue F) :
    ∀ m : List (List Char × JValue F),
      depthOfMembers (mapInsert k v m) ≤ max (depthOf v) (depthOfMembers m)
  | [] => by simp [mapInsert, depthOfMembers]
  | (k1, v1) :: m => by
    have ih := depthOfMembers_mapInsert k v m
    simp only [mapInsert]
    split
    · simp only [depthOfMembers]; omega
    · split
      · simp only [depthOfMembers]; omega
      · simp only [depthOfMembers]; omega

theorem parseValue_beginArray (codec : NumCodec) (fuel depth : Nat) (ts : List Token) :
    parseValue codec (fuel + 1) depth (.beginArray :: ts) =
      if depth + 1 ≤ maxNestingDepth then
        match ts with
        | .endArray :: ts1 => some (.arr [], ts1)
        | _ =>
          match parseElements codec fuel (depth + 1) ts with
          | some (vs, ts1) => some (.arr vs, ts1)
          | none => none
      else none := by
  rw [parseValue.eq_def]

theorem parseValue_beginObject (codec : NumCodec) (fuel depth : Nat) (ts : List Token) :
    parseValue codec (fuel + 1) depth (.beginObject :: ts) =
      if depth + 1 ≤ maxNestingDepth then
        match ts with
        | .endObject :: ts1 => some (.obj [], ts1)
        | _ =>
          match parseMembers codec fuel (depth + 1) [] ts with
          | some (m, ts1) => some (.obj m, ts1)
          | none => none
      else none := by
  rw [parseValue.eq_def]

theorem parseMembers_succ (codec : NumCodec) (fuel depth : Nat)
    (acc : List (List Char × JValue codec.F)) (ts : List Token) :
    parseMembers codec (fuel + 1) depth acc ts =
      match ts with
      | .str k :: .colon :: ts1 =>
        match parseValue codec fuel depth ts1 with
        | some (v, .comma :: ts2) => parseMembers codec fuel depth (mapInsert k v acc) ts2
        | some (v, .endObject :: ts2) => some (mapInsert k v acc, ts2)
        | _ => none
      | _ => none := by
  rw [parseMembers.eq_def]

theorem parse_invariants (codec : NumCodec) : ∀ fuel : Nat,
    (∀ depth ts v rest, depth ≤ maxNestingDepth →
      parseValue codec fuel depth ts = some (v, rest) →
        Canon v ∧ depth + depthOf v ≤ maxNestingDepth) ∧
    (∀ depth ts vs rest, depth ≤ maxNestingDepth →
      parseElements codec fuel depth ts = some (vs, rest) →
        CanonList vs ∧ depth + depthOfList vs ≤ maxNestingDepth) ∧
    (∀ depth acc ts m rest, depth ≤ maxNestingDepth → keysAscending acc → CanonMembers acc →
      depth + depthOfMembers acc ≤ maxNestingDepth →
      parseMembers codec fuel depth acc ts = some (m, rest) →
        keysAscending m ∧ CanonMembers m ∧ depth + depthOfMembers m ≤ maxNestingDepth) := by
  intro fuel
  induction fuel with
  | zero =>
    refine ⟨?_, ?_, ?_⟩
    · intro depth ts v rest _ h
      simp [parseValue] at h
    · intro depth ts vs rest _ h
      simp [parseElements] at h
    · intro depth acc ts m rest _ _ _ _ h
      simp [parseMembers] at h
  | succ fuel ih =>
    obtain ⟨ihV, ihE, ihM⟩ := ih
    refine ⟨?_, ?_, ?_⟩
    · intro depth ts v rest hd h
      cases ts with
      | nil => simp [parseValue] at h
      | cons t ts =>
        cases t with
        | litNull =>
          rw [parseValue] at h
          simp only [Option.some.injEq, Prod.mk.injEq] at h
          rw [← h.1]
          exact ⟨trivial, by simp [depthOf]; exact hd⟩
        | litTrue =>
          rw [parseValue] at h
          simp only [Option.some.injEq, Prod.mk.injEq] at h
          rw [← h.1]
          exact ⟨trivial, by simp [depthOf]; exact hd⟩
        | litFalse =>
          rw [parseValue] at h
          simp only [Option.some.injEq, Prod.mk.injEq] at h
          rw [← h.1]
          exact ⟨trivial, by simp [depthOf]; exact hd⟩
        | str s =>
          rw [parseValue] at h
          simp only [Option.some.injEq, Prod.mk.injEq] at h
          rw [← h.1]
          exact ⟨trivial, by simp [depthOf]; exact hd⟩
        | num lit =>
          rw [parseValue] at h
          split at h
          · simp only [Option.some.injEq, Prod.mk.injEq] at h
            rw [← h.1]
            exact ⟨trivial, by simp [depthOf]; exact hd⟩
          · simp at h
        | beginArray =>
          rw [parseValue_beginArray] at h
          split at h
          · rename_i hdep
            split at h
            · simp only [Option.some.injEq, Prod.mk.injEq] at h
              rw [← h.1]
              refine ⟨trivial, ?_⟩
              simp only [depthOf, depthOfList]
              omega
            · split at h
              · rename_i vs ts1 hpe
                simp only [Option.some.injEq, Prod.mk.injEq] at h
                rw [← h.1]
                have := ihE (depth + 1) _ vs ts1 hdep hpe
                refine ⟨this.1, ?_⟩
                simp only [depthOf]
                omega
              · simp at h
          · simp at h
        | beginObject =>
          rw [parseValue_beginObject] at h
          split at h
          · rename_i hdep
            split at h
            · simp only [Option.some.injEq, Prod.mk.injEq] at h
              rw [← h.1]
              refine ⟨⟨trivial, trivial⟩, ?_⟩
              simp only [depthOf, depthOfMembers]
              omega
            · split at h
              · rename_i m ts1 hpm
                simp only [Option.some.injEq, Prod.mk.injEq] at h
                rw [← h.1]
                have := ihM (depth + 1) [] _ m ts1 hdep trivial trivial
                  (by simp only [depthOfMembers]; omega) hpm
                refine ⟨⟨this.1, this.2.1⟩, ?_⟩
                simp only [depthOf]
                omega
              · simp at h
          · simp at h
        | endObject => simp [parseValue] at h
        | endArray => simp [parseValue] at h
        | colon => simp [parseValue] at h
        | comma => simp [parseValue] at h
    · intro depth ts vs rest hd h
      rw [parseElements] at h
      split at h
      · rename_i v ts1 hpv
        split at h
        · rename_i vs1 ts2 hpe
          simp only [Option.some.injEq, Prod.mk.injEq] at h
          rw [← h.1]
          have h1 := ihV depth _ v _ hd hpv
          have h2 := ihE depth _ vs1 ts2 hd hpe
          refine ⟨⟨h1.1, h2.1⟩, ?_⟩
          simp only [depthOfList]
          omega
        · simp at h
      · rename_i v ts1 hpv
        simp only [Option.some.injEq, Prod.mk.injEq] at h
        rw [← h.1]
        have h1 := ihV depth _ v _ hd hpv
        refine ⟨⟨h1.1, trivial⟩, ?_⟩
        simp only [depthOfList]
        omega
      · simp at h
    · intro depth acc ts m rest hd hasc hcan hdep h
      rw [parseMembers_succ] at h
      split at h
      · rename_i k ts1
        have hins : ∀ v, Canon v ∧ depth + depthOf v ≤ maxNestingDepth →
            keysAscending (mapInsert k v acc) ∧ CanonMembers (mapInsert k v acc) ∧
              depth + depthOfMembers (mapInsert k v acc) ≤ maxNestingDepth := by
          intro v hv
          refine ⟨mapInsert_ascending k v acc hasc, CanonMembers_mapInsert k v hv.1 acc hcan, ?_⟩
          have := depthOfMembers_mapInsert k v acc
          omega
        split at h
        · rename_i v ts2 hpv
          have h1 := hins v (ihV depth _ v _ hd hpv)
          exact ihM depth _ _ m rest hd h1.1 h1.2.1 h1.2.2 h
        · rename_i v ts2 hpv
          have h1 := hins v (ihV depth _ v _ hd hpv)
          simp only [Option.some.injEq, Prod.mk.injEq] at h
          rw [← h.1]
          exact h1
        · simp at h
      · simp at h

theorem tokensOf_head (codec : NumCodec) (v : JValue codec.F) (toks : List Token)
    (h : tokensOf codec v = .ok toks) : ∃ t tl, toks = t :: tl ∧ startsValue t := by
  cases v with
  | null => simp only [tokensOf, Except.ok.injEq] at h; exact ⟨_, _, h.symm, trivial⟩
  | bool b =>
    cases b <;> simp only [tokensOf, Except.ok.injEq] at h <;> exact ⟨_, _, h.symm, trivial⟩
  | str s => simp only [tokensOf, Except.ok.injEq] at h; exact ⟨_, _, h.symm, trivial⟩
  | num f =>
    rw [tokensOf] at h
    cases hf : codec.formatFloat f with
    | error e => simp [hf] at h
    | ok lit =>
      simp only [hf, Except.ok.injEq] at h
      exact ⟨_, _, h.symm, trivial⟩
  | arr xs =>
    rw [tokensOf] at h
    cases hb : elementTokens codec xs with
    | error e => simp [hb] at h
    | ok body =>
      simp only [hb, Except.ok.injEq] at h
      exact ⟨_, _, h.symm, trivial⟩
  | obj m =>
    rw [tokensOf] at h
    cases hb : memberTokens codec m with
    | error e => simp [hb] at h
    | ok body =>
      simp only [hb, Except.ok.injEq] at h
      exact ⟨_, _, h.symm, trivial⟩

theorem elementTokens_head (codec : NumCodec) (xs : List (JValue codec.F)) (hne : xs ≠ [])
    (toks : List Token) (h : elementTokens codec xs = .ok toks) :
    ∃ t tl, toks = t :: tl ∧ startsValue t := by
  match xs, hne, h with
  | [v], _, h =>
    rw [elementTokens] at h
    exact tokensOf_head codec v toks h
  | v :: w :: rest, _, h =>
    rw [elementTokens] at h
    cases ha : tokensOf codec v with
    | error e => simp [ha] at h
    | ok a =>
      cases hb : elementTokens codec (w :: rest) with
      | error e => simp [ha, hb] at h
      | ok b =>
        simp only [ha, hb, Except.ok.injEq] at h
        obtain ⟨t, tl, hat, hst⟩ := tokensOf_head codec v a ha
        subst hat
        exact ⟨t, _, by rw [← h]; rfl, hst⟩

theorem parseValue_array_nonempty (codec : NumCodec) (fuel depth : Nat) (t : Token)
    (tl : List Token) (ht : startsValue t) (hd : depth + 1 ≤ maxNestingDepth) :
    parseValue codec (fuel + 1) depth (.beginArray :: t :: tl) =
      match parseElements codec fuel (depth + 1) (t :: tl) with
      | some (vs, ts1) => some (.arr vs, ts1)
      | none => none := by
  rw [parseValue_beginArray]
  simp only [hd, if_true]
  cases t <;> first | rfl | exact absurd ht (by simp [startsValue])

theorem parseValue_object_nonempty (codec : NumCodec) (fuel depth : Nat) (k : List Char)
    (tl : List Token) (hd : depth + 1 ≤ maxNestingDepth) :
    parseValue codec (fuel + 1) depth (.beginObject :: .str k :: tl) =
      match parseMembers codec fuel (depth + 1) [] (.str k :: tl) with
      | some (m, ts1) => some (.obj m, ts1)
      | none => none := by
  rw [parseValue_beginObject]
  simp only [hd, if_true]

theorem keysAscending_prefix {V : Type} :
    ∀ l1 l2 : List (List Char × V), keysAscending (l1 ++ l2) → keysAscending l1
  | [], _, _ => trivial
  | (k, v) :: l1, l2, h => by
    rw [List.cons_append, keysAscending_cons] at h
    rw [keysAscending_cons]
    refine ⟨?_, keysAscending_prefix l1 l2 h.2⟩
    intro p hp
    apply h.1 p
    cases l1 with
    | nil => simp at hp
    | cons q l1 => simpa using hp

mutual
theorem parseValue_tokensOf (codec : NumCodec) (hc : codec.RoundTrips) :
    ∀ (v : JValue codec.F) (toks : List Token), tokensOf codec v = .ok toks → Canon v →
      ∀ fuel depth rest, toks.length ≤ fuel → depth + depthOf v ≤ maxNestingDepth →
        parseValue codec fuel depth (toks ++ rest) = some (v, rest)
  | .null, toks, h, _, fuel, depth, rest, hf, _ => by
    simp only [tokensOf, Except.ok.injEq] at h
    subst h
    cases fuel with
    | zero => simp at hf
    | succ f => rw [List.singleton_append, parseValue]
  | .bool true, toks, h, _, fuel, depth, rest, hf, _ => by
    simp only [tokensOf, Except.ok.injEq] at h
    subst h
    cases fuel with
    | zero => simp at hf
    | succ f => rw [List.singleton_append, parseValue]
  | .bool false, toks, h, _, fuel, depth, rest, hf, _ => by
    simp only [tokensOf, Except.ok.injEq] at h
    subst h
    cases fuel with
    | zero => simp at hf
    | succ f => rw [List.singleton_append, parseValue]
  | .str s, toks, h, _, fuel, depth, rest, hf, _ => by
    simp only [tokensOf, Except.ok.injEq] at h
    subst h
    cases fuel with
    | zero => simp at hf
    | succ f => rw [List.singleton_append, parseValue]
  | .num x, toks, h, _, fuel, depth, rest, hf, _ => by
    rw [tokensOf] at h
    cases hx : codec.formatFloat x with
    | error e => simp [hx] at h
    | ok lit =>
      simp only [hx, Except.ok.injEq] at h
      subst h
      cases fuel with
      | zero => simp at hf
      | succ f =>
        rw [List.singleton_append, parseValue]
        simp only [(hc x lit hx).2]
  | .arr xs, toks, h, hcan, fuel, depth, rest, hf, hd => by
    rw [tokensOf] at h
    cases hb : elementTokens codec xs with
    | error e => simp [hb] at h
    | ok body =>
      simp only [hb, Except.ok.injEq] at h
      subst h
      simp only [depthOf] at hd
      simp only [List.length_cons, List.length_append, List.length_nil] at hf
      cases fuel with
      | zero => omega
      | succ f =>
        simp only [List.cons_append, List.append_assoc, List.singleton_append, List.nil_append]
        by_cases hxs : xs = []
        · subst hxs
          simp only [elementTokens, Except.ok.injEq] at hb
          subst hb
          rw [List.nil_append, parseValue_beginArray]
          have : depth + 1 ≤ maxNestingDepth := by omega
          simp only [this, if_true]
        · obtain ⟨t, tl, hbt, hst⟩ := elementTokens_head codec xs hxs body hb
          have hpe := parseElements_elementTokens codec hc xs body hxs hb hcan f (depth + 1) rest
            (by omega) (by omega)
          subst hbt
          rw [List.cons_append] at hpe ⊢
          rw [parseValue_array_nonempty codec f depth t _ hst (by omega), hpe]
  | .obj m, toks, h, hcan, fuel, depth, rest, hf, hd => by
    rw [tokensOf] at h
    cases hb : memberTokens codec m with
    | error e => simp [hb] at h
    | ok body =>
      simp only [hb, Except.ok.injEq] at h
      subst h
      simp only [depthOf] at hd
      simp only [List.length_cons, List.length_append, List.length_nil] at hf
      cases fuel with
      | zero => omega
      | succ f =>
        simp only [List.cons_append, List.append_assoc, List.singleton_append, List.nil_append]
        by_cases hm : m = []
        · subst hm
          simp only [memberTokens, Except.ok.injEq] at hb
          subst hb
          rw [List.nil_append, parseValue_beginObject]
          have : depth + 1 ≤ maxNestingDepth := by omega
          simp only [this, if_true]
        · have hpm := parseMembers_memberTokens codec hc m body hm hb hcan.2 []
            (by simpa using hcan.1) f (depth + 1) rest (by omega) (by omega)
          obtain ⟨k, tl, hbt⟩ : ∃ k tl, body = .str k :: tl := by
            match m, hm, hb with
            | [(k, v)], _, hb =>
              rw [memberTokens] at hb
              cases ha : tokensOf codec v with
              | error e => simp [ha] at hb
              | ok a =>
                simp only [ha, Except.ok.injEq] at hb
                exact ⟨k, _, hb.symm⟩
            | (k, v) :: e :: r, _, hb =>
              rw [memberTokens] at hb
              cases ha : tokensOf codec v with
              | error e => simp [ha] at hb
              | ok a =>
                cases hb2 : memberTokens codec (e :: r) with
                | error e => simp [ha, hb2] at hb
                | ok b =>
                  simp only [ha, hb2, Except.ok.injEq] at hb
                  exact ⟨k, _, hb.symm⟩
          subst hbt
          rw [List.cons_append] at hpm ⊢
          rw [parseValue_object_nonempty codec f depth k _ (by omega), hpm]
          simp
theorem parseElements_elementTokens (codec : NumCodec) (hc : codec.RoundTrips) :
    ∀ (xs : List (JValue codec.F)) (toks : List Token), xs ≠ [] →
      elementTokens codec xs = .ok toks → CanonList xs →
      ∀ fuel depth rest, toks.length + 1 ≤ fuel → depth + depthOfList xs ≤ maxNestingDepth →
        parseElements codec fuel depth (toks ++ .endArray :: rest) = some (xs, rest)
  | [], _, hne, _, _, _, _, _, _, _ => absurd rfl hne
  | [v], toks, _, h, hcan, fuel, depth, rest, hf, hd => by
    rw [elementTokens] at h
    simp only [depthOfList] at hd
    cases fuel with
    | zero => omega
    | succ f =>
      rw [parseElements, parseValue_tokensOf codec hc v toks h hcan.1 f depth _ (by omega)
        (by omega)]
  | v :: w :: r, toks, _, h, hcan, fuel, depth, rest, hf, hd => by
    rw [elementTokens] at h
    cases ha : tokensOf codec v with
    | error e => simp [ha] at h
    | ok a =>
      cases hb : elementTokens codec (w :: r) with
      | error e => simp [ha, hb] at h
      | ok b =>
        simp only [ha, hb, Except.ok.injEq] at h
        subst h
        rw [depthOfList] at hd
        simp only [List.length_cons, List.length_append] at hf
        cases fuel with
        | zero => omega
        | succ f =>
          rw [List.append_assoc, List.cons_append, parseElements,
            parseValue_tokensOf codec hc v a ha hcan.1 f depth _ (by omega) (by omega)]
          simp only
          rw [parseElements_elementTokens codec hc (w :: r) b (by simp) hb hcan.2 f depth rest
            (by omega) (by omega)]
theorem parseMembers_memberTokens (codec : NumCodec) (hc : codec.RoundTrips) :
    ∀ (m : List (List Char × JValue codec.F)) (toks : List Token), m ≠ [] →
      memberTokens codec m = .ok toks → CanonMembers m →
      ∀ acc, keysAscending (acc ++ m) →
      ∀ fuel depth rest, toks.length + 1 ≤ fuel → depth + depthOfMembers m ≤ maxNestingDepth →
        parseMembers codec fuel depth acc (toks ++ .endObject :: rest) = some (acc ++ m, rest)
  | [], _, hne, _, _, _, _, _, _, _, _, _ => absurd rfl hne
  | [(k, v)], toks, _, h, hcan, acc, hasc, fuel, depth, rest, hf, hd => by
    rw [memberTokens] at h
    cases ha : tokensOf codec v with
    | error e => simp [ha] at h
    | ok a =>
      simp only [ha, Except.ok.injEq] at h
      subst h
      simp only [depthOfMembers] at hd
      simp only [List.length_cons] at hf
      cases fuel with
      | zero => omega
      | succ f =>
        rw [List.cons_append, List.cons_append, parseMembers_succ]
        simp only
        rw [parseValue_tokensOf codec hc v a ha hcan.1 f depth _ (by omega) (by omega)]
        simp only
        rw [mapInsert_append_last k v acc hasc]
  | (k, v) :: e :: r, toks, _, h, hcan, acc, hasc, fuel, depth, rest, hf, hd => by
    rw [memberTokens] at h
    cases ha : tokensOf codec v with
    | error e => simp [ha] at h
    | ok a =>
      cases hb : memberTokens codec (e :: r) with
      | error e => simp [ha, hb] at h
      | ok b =>
        simp only [ha, hb, Except.ok.injEq] at h
        subst h
        rw [depthOfMembers] at hd
        simp only [List.length_cons, List.length_append] at hf
        cases fuel with
        | zero => omega
        | succ f =>
          have hasc1 : keysAscending (acc ++ [(k, v)]) := by
            apply keysAscending_prefix (acc ++ [(k, v)]) (e :: r)
            simpa using hasc
          rw [List.cons_append, List.cons_append, List.append_assoc, List.cons_append,
            parseMembers_succ]
          simp only
          rw [parseValue_tokensOf codec hc v a ha hcan.1 f depth _ (by omega) (by omega)]
          simp only
          rw [mapInsert_append_last k v acc hasc1,
            parseMembers_memberTokens codec hc (e :: r) b (by simp) hb hcan.2 (acc ++ [(k, v)])
              (by simpa using hasc) f depth rest (by omega) (by omega)]
          simp
end

theorem render_eq_renderPadded (toks : List Token) :
    render toks = renderPadded (toks.map fun t => ([], t)) := by
  induction toks with
  | nil => rfl
  | cons t toks ih => simp [render, renderPadded, ih]

theorem jsonUnmarshal_invariants (codec : NumCodec) (data : List Char) (v : JValue codec.F)
    (h : jsonUnmarshal codec data = some v) : Canon v ∧ depthOf v ≤ maxNestingDepth := by
  unfold jsonUnmarshal at h
  split at h
  · rename_i toks _
    split at h
    · rename_i v1 hp
      simp only [Option.some.injEq] at h
      subst h
      have := (parse_invariants codec (toks.length + 1)).1 0 toks v1 [] (Nat.zero_le _) hp
      simpa using this
    · simp at h
  · simp at h

theorem jsonUnmarshal_padded (codec : NumCodec) (hc : codec.RoundTrips) (v : JValue codec.F)
    (hcan : Canon v) (hdep : depthOf v ≤ maxNestingDepth)
    (ptoks : List (List Char × Token)) (trail : List Char)
    (hws : ∀ p ∈ ptoks, ∀ c ∈ p.1, isJSONSpace c = true)
    (htr : ∀ c ∈ trail, isJSONSpace c = true)
    (htoks : tokensOf codec v = .ok (ptoks.map Prod.snd)) :
    jsonUnmarshal codec (renderPadded ptoks ++ trail) = some v := by
  have hnd : numsDelimited (ptoks.map Prod.snd) := by
    have := numsDelimited_tokensOf codec hc v _ htoks [] trivial (by intro t ht; simp at ht)
    simpa using this
  have htk := tokenize_renderPadded ptoks trail htr hws hnd _ (Nat.le_refl _)
  have hpv := parseValue_tokensOf codec hc v _ htoks hcan ((ptoks.map Prod.snd).length + 1) 0 []
    (Nat.le_succ _) (by omega)
  rw [List.append_nil] at hpv
  unfold jsonUnmarshal
  rw [htk]
  simp only
  rw [hpv]

theorem jsonMarshal_tokens (codec : NumCodec) (v : JValue codec.F) (b : List Char)
    (h : jsonMarshal codec v = .ok b) :
    ∃ toks, tokensOf codec v = .ok toks ∧ b = render toks := by
  unfold jsonMarshal at h
  rw [serialize_eq_render] at h
  cases ht : tokensOf codec v with
  | error e => simp [ht, Except.map] at h
  | ok toks =>
    simp only [ht, Except.map, Except.ok.injEq] at h
    exact ⟨toks, rfl, h.symm⟩

theorem jsonUnmarshal_jsonMarshal (codec : NumCodec) (hc : codec.RoundTrips)
    (data : List Char) (v : JValue codec.F) (b : List Char)
    (hv : jsonUnmarshal codec data = some v) (hb : jsonMarshal codec v = .ok b) :
    jsonUnmarshal codec b = some v := by
  obtain ⟨hcan, hdep⟩ := jsonUnmarshal_invariants codec data v hv
  obtain ⟨toks, ht, hbr⟩ := jsonMarshal_tokens codec v b hb
  have := jsonUnmarshal_padded codec hc v hcan hdep (toks.map fun t => ([], t)) []
    (by simp) (by simp) (by simpa using ht)
  rw [List.append_nil, ← render_eq_renderPadded, ← hbr] at this
  exact this

theorem readAndValidateJSON_ok (codec : NumCodec) (w : World) (p : String) (b : List Char)
    (h : (readAndValidateJSON codec w p).1 = .ok b) :
    ∃ content v, jsonUnmarshal codec content = some v ∧ jsonMarshal codec v = .ok b := by
  unfold readAndValidateJSON at h
  repeat' split at h
  all_goals first
    | (rename_i v hu _ c hm
       simp only [Except.ok.injEq] at h
       subst h
       exact ⟨_, v, hu, hm⟩)
    | (simp at h)

theorem decimalValue_append_singleton (ds : List Char) (c : Char) :
    decimalValue (ds ++ [c]) = decimalValue ds * 10 + (c.toNat - 48) := by
  simp [decimalValue, List.foldl_append]

theorem digit_toNat (d : Nat) (h : d < 10) : (Char.ofNat (48 + d)).toNat = 48 + d := by
  interval_cases d <;> rfl

theorem digit_isDigit (d : Nat) (h : d < 10) : isDigit (Char.ofNat (48 + d)) = true := by
  interval_cases d <;> rfl

theorem decimalDigits_spec : ∀ (fuel n : Nat), n < 10 ^ (fuel + 1) →
    decimalValue (decimalDigits fuel n) = n ∧ (decimalDigits fuel n).all isDigit = true ∧
    decimalDigits fuel n ≠ [] ∧
    (1 ≤ n → ∀ c, (decimalDigits fuel n).head? = some c → c ≠ '0' ∧ isDigit c = true) ∧
    (n = 0 → decimalDigits fuel n = ['0'])
  | 0, n, h => by
    have hn : n < 10 := by simpa using h
    have hmod : n % 10 = n := Nat.mod_eq_of_lt hn
    simp only [decimalDigits, hmod]
    refine ⟨?_, ?_, by simp, ?_, ?_⟩
    · simp [decimalValue, digit_toNat n hn]
    · simp [digit_isDigit n hn]
    · intro h1 c hc
      simp only [List.head?_cons, Option.some.injEq] at hc
      subst hc
      refine ⟨?_, digit_isDigit n hn⟩
      interval_cases n <;> first | omega | decide
    · intro h0; subst h0; rfl
  | fuel + 1, n, h => by
    rw [decimalDigits]
    by_cases hn : n < 10
    · simp only [hn, if_true]
      refine ⟨?_, ?_, by simp, ?_, ?_⟩
      · simp [decimalValue, digit_toNat n hn]
      · simp [digit_isDigit n hn]
      · intro h1 c hc
        simp only [List.head?_cons, Option.some.injEq] at hc
        subst hc
        refine ⟨?_, digit_isDigit n hn⟩
        interval_cases n <;> first | omega | decide
      · intro h0; subst h0; rfl
    · simp only [hn, if_false]
      have hdiv : n / 10 < 10 ^ (fuel + 1) := by
        rw [Nat.div_lt_iff_lt_mul (by decide)]
        calc n < 10 ^ (fuel + 1 + 1) := h
          _ = 10 ^ (fuel + 1) * 10 := by rw [Nat.pow_succ]
      obtain ⟨h1, h2, h3, h4, _⟩ := decimalDigits_spec fuel (n / 10) hdiv
      have hm : n % 10 < 10 := Nat.mod_lt _ (by decide)
      refine ⟨?_, ?_, by simp, ?_, ?_⟩
      · rw [decimalValue_append_singleton, h1, digit_toNat _ hm]
        omega
      · simp [h2, digit_isDigit _ hm]
      · intro _ c hc
        apply h4 (by omega) c
        cases hdd : decimalDigits fuel (n / 10) with
        | nil => exact absurd hdd h3
        | cons a l => simpa [hdd] using hc
      · intro h0; omega

theorem takeWhile_all (p : Char → Bool) (l : List Char) (h : l.all p = true) :
    l.takeWhile p = l ∧ l.dropWhile p = [] := by
  induction l with
  | nil => simp
  | cons a l ih =>
    simp only [List.all_cons, Bool.and_eq_true] at h
    simp [List.takeWhile, List.dropWhile, h.1, ih h.2]

theorem scanInteger_digits (acc : List Char) (d : Char) (ds : List Char)
    (hall : (d :: ds).all isDigit = true) (hz : d = '0' → ds = []) :
    scanInteger acc (d :: ds) = some (acc ++ d :: ds, []) := by
  simp only [List.all_cons, Bool.and_eq_true] at hall
  unfold scanInteger
  by_cases h0 : d = '0'
  · have := hz h0
    subst this
    simp [h0, scanFraction]
  · obtain ⟨t1, t2⟩ := takeWhile_all isDigit ds hall.2
    simp only [h0, if_false, hall.1, if_true, t1, t2]
    simp [scanFraction]

theorem smallIntCodec_roundTrips : smallIntCodec.RoundTrips := by
  intro f lit h
  obtain ⟨neg, n⟩ := f
  simp only [smallIntCodec] at h
  by_cases hn : n < 2 ^ 53
  · simp only [hn, if_true, Except.ok.injEq] at h
    have hlt : n < 10 ^ (16 + 1) := by
      have : (2 : Nat) ^ 53 < 10 ^ (16 + 1) := by norm_num
      omega
    obtain ⟨hval, hall, hne, hhead, hzero⟩ := decimalDigits_spec 16 n hlt
    cases hdd : decimalDigits 16 n with
    | nil => exact absurd hdd hne
    | cons d ds =>
      rw [hdd] at h hval hall hhead hzero
      have hz : d = '0' → ds = [] := by
        intro hd0
        by_cases h1 : 1 ≤ n
        · exact absurd hd0 (hhead h1 d rfl).1
        · have := hzero (by omega)
          simp only [List.cons.injEq] at this
          exact this.2
      have hdig : isDigit d = true := by
        simp only [List.all_cons, Bool.and_eq_true] at hall
        exact hall.1
      have hdm : d ≠ '-' := by
        intro hd
        rw [hd] at hdig
        exact absurd hdig (by decide)
      have hps : ∀ b, parseSmallNat b (d :: ds) = some (b, n) := by
        intro b
        simp only [parseSmallNat, hall, hval, hn, ne_eq, reduceCtorEq, not_false_eq_true,
          and_self, if_true]
      cases neg with
      | true =>
        simp only [if_true, List.singleton_append] at h
        subst h
        refine ⟨?_, ?_⟩
        · simp only [validNumber, scanNumber, if_true]
          exact scanInteger_digits ['-'] d ds hall hz
        · simp only [smallIntCodec, if_true]
          exact hps true
      | false =>
        simp only [Bool.false_eq_true, if_false, List.nil_append] at h
        subst h
        refine ⟨?_, ?_⟩
        · simp only [validNumber, scanNumber, hdm, if_false]
          exact scanInteger_digits [] d ds hall hz
        · simp only [smallIntCodec, hdm, if_false]
          exact hps false
  · have h53 : (2 : Nat) ^ 53 = 9007199254740992 := by norm_num
    rw [h53] at hn
    simp [hn] at h

/-- C5, as stated, fails: the keys of an object come out in ascending order,
not in the order of the file, and `<` inside a string comes out as `\u003c`,
although neither file has any white space to remove. -/
theorem loader_key_order_counterexample :
    (readAndValidateJSON smallIntCodec (worldWithPayload "\x7b\"b\":2,\"a\":1\x7d") "p.json").1
      = .ok "\x7b\"a\":1,\"b\":2\x7d".data ∧
    (readAndValidateJSON smallIntCodec (worldWithPayload "[\"<\"]") "p.json").1
      = .ok "[\"\\u003c\"]".data ∧
    ("\x7b\"b\":2,\"a\":1\x7d".data.any isJSONSpace = false ∧
      "[\"<\"]".data.any isJSONSpace = false) ∧
    "\x7b\"a\":1,\"b\":2\x7d" ≠ "\x7b\"b\":2,\"a\":1\x7d" ∧ "[\"\\u003c\"]" ≠ "[\"<\"]" := by
  decide

/-- C5, amended: a canonical text `b` (what `json.Marshal` writes for a value
`json.Unmarshal` produced) that is written to the file with JSON white space
put in front of its tokens and at the end is returned by the loader as `b`,
the file content with exactly that white space removed. -/
theorem loader_strips_whitespace (codec : NumCodec) (hc : codec.RoundTrips) (w : World)
    (p resolved content : String)
    (habs : w.abs p = .ok resolved) (hstat : w.stat resolved = some true)
    (hopen : w.openFile resolved = true) (hread : w.readAll resolved = some content)
    (c0 : List Char) (v : JValue codec.F) (b : List Char)
    (hv : jsonUnmarshal codec c0 = some v) (hb : jsonMarshal codec v = .ok b)
    (ptoks : List (List Char × Token)) (trail : List Char)
    (hws : ∀ p ∈ ptoks, ∀ c ∈ p.1, isJSONSpace c = true)
    (htr : ∀ c ∈ trail, isJSONSpace c = true)
    (htok : tokenize b.length b = some (ptoks.map Prod.snd))
    (hcontent : content.data = renderPadded ptoks ++ trail) :
    (readAndValidateJSON codec w p).1 = .ok b ∧ b = render (ptoks.map Prod.snd) := by
  obtain ⟨hcan, hdep⟩ := jsonUnmarshal_invariants codec c0 v hv
  obtain ⟨toks, ht, hbr⟩ := jsonMarshal_tokens codec v b hb
  have hnd : numsDelimited toks := by
    have := numsDelimited_tokensOf codec hc v _ ht [] trivial (by intro t ht; simp at ht)
    simpa using this
  have htk := tokenize_renderPadded (toks.map fun t => ([], t)) [] (by simp) (by simp)
    (by simpa using hnd) _ (Nat.le_refl _)
  rw [List.append_nil, ← render_eq_renderPadded, ← hbr] at htk
  rw [htk] at htok
  have heq : ptoks.map Prod.snd = toks := by
    simpa using htok.symm
  have hu := jsonUnmarshal_padded codec hc v hcan hdep ptoks trail hws htr (by rw [heq]; exact ht)
  rw [← hcontent] at hu
  refine ⟨?_, by rw [heq]; exact hbr⟩
  simp [readAndValidateJSON, habs, hstat, hopen, hread, hu, hb]

/-- C5 at the file `{"a":1,  "b": [1,2]}` of the specification. -/
theorem loader_strips_whitespace_witness :
    (readAndValidateJSON smallIntCodec (worldWithPayload "\x7b\"a\":1,  \"b\": [1,2]\x7d")
        "p.json").1 = .ok "\x7b\"a\":1,\"b\":[1,2]\x7d".data ∧
      "\x7b\"a\":1,\"b\":[1,2]\x7d".data =
        render [.beginObject, .str ['a'], .colon, .num ['1'], .comma, .str ['b'], .colon,
          .beginArray, .num ['1'], .comma, .num ['2'], .endArray, .endObject] :=
  loader_strips_whitespace smallIntCodec smallIntCodec_roundTrips
    (worldWithPayload "\x7b\"a\":1,  \"b\": [1,2]\x7d") "p.json" "/w/p.json"
    "\x7b\"a\":1,  \"b\": [1,2]\x7d" rfl rfl rfl rfl
    "\x7b\"a\":1,\"b\":[1,2]\x7d".data
    (.obj [(['a'], .num (false, 1)), (['b'], .arr [.num (false, 1), .num (false, 2)])])
    "\x7b\"a\":1,\"b\":[1,2]\x7d".data rfl rfl
    [([], .beginObject), ([], .str ['a']), ([], .colon), ([], .num ['1']), ([], .comma),
      ([' ', ' '], .str ['b']), ([], .colon), ([' '], .beginArray), ([], .num ['1']),
      ([], .comma), ([], .num ['2']), ([], .endArray), ([], .endObject)]
    [] (by decide) (by decide) (by decide) rfl

theorem validateArgs_error_cases (caseTable : Char → Char) (c : Config) (e : String)
    (h : validateArgs caseTable c = some e) :
    e = errMissingPayload ∨ e = errMixedModes ∨ e = errUnifiedBoth ∨ e = errBadType ∨
      e = errNoDestination ∨ e = errOneDestination := by
  unfold validateArgs at h
  simp only at h
  repeat' split at h
  all_goals first
    | (simp only [Option.some.injEq] at h; subst h; simp)
    | (simp at h)

theorem append_ne_of_not_prefix (pre x target : String) (h : ¬ pre.data <+: target.data) :
    pre ++ x ≠ target := by
  intro heq
  apply h
  rw [← heq, String.data_append]
  exact List.prefix_append _ _

theorem readAndValidateJSON_error_ne (codec : NumCodec) (w : World) (p e : String)
    (h : (readAndValidateJSON codec w p).1 = .error e) : e ≠ "erro ao parsear JSON" := by
  unfold readAndValidateJSON at h
  repeat' split at h
  all_goals first
    | (simp only [Except.error.injEq] at h
       subst h
       exact append_ne_of_not_prefix _ _ _ (by decide))
    | (simp at h)

theorem getConnectionString_error (getenv : String → String) (e : String)
    (h : getConnectionString getenv = .error e) : e = errNoConnection := by
  simp only [getConnectionString] at h
  generalize (if getenv "SB_CONNECTION_STRING" = "" then getenv "SB_ENDPOINT"
    else getenv "SB_CONNECTION_STRING") = sel at h
  by_cases hs : sel = "" ∨ TrimSpace sel = ""
  · rw [if_pos hs] at h
    injection h with h1
    exact h1.symm
  · rw [if_neg hs] at h
    cases h

/-- C10: the canonical bytes are a fixed point: when the loader returns `b`,
parsing `b` again succeeds and writing the value back gives `b`; so `runPush`
never returns the error of its second parse. -/
theorem canonical_bytes_fixed_point (codec : NumCodec) (hc : codec.RoundTrips) (w : World)
    (p : String) (b : List Char) (h : (readAndValidateJSON codec w p).1 = .ok b) :
    (∃ v, jsonUnmarshal codec b = some v ∧ jsonMarshal codec v = .ok b) ∧
    (∀ caseTable c, c.Payload = p →
      (runPush codec caseTable w c).1 ≠ some "erro ao parsear JSON") := by
  obtain ⟨content, v, hv, hb⟩ := readAndValidateJSON_ok codec w p b h
  have hfix := jsonUnmarshal_jsonMarshal codec hc content v b hv hb
  refine ⟨⟨v, hfix, hb⟩, ?_⟩
  intro caseTable c hp
  subst hp
  cases hva : validateArgs caseTable c with
  | some e =>
    simp only [runPush, hva, ne_eq, Option.some.injEq]
    rcases validateArgs_error_cases caseTable c e hva with h1 | h1 | h1 | h1 | h1 | h1 <;>
      rw [h1] <;> decide
  | none =>
  cases hcs : getConnectionString w.getenv with
  | error e =>
    simp only [runPush, hva, hcs, ne_eq, Option.some.injEq]
    have : e = errNoConnection := getConnectionString_error w.getenv e hcs
    rw [this]
    decide
  | ok conn =>
  cases hcl : w.newClient conn with
  | some e =>
    simp only [runPush, hva, hcs, h, hcl, ne_eq, Option.some.injEq]
    exact append_ne_of_not_prefix _ _ _ (by decide)
  | none =>
  cases hs : w.newSender (resolveDestination caseTable c).1 with
  | some e =>
    simp only [runPush, hva, hcs, h, hcl, hs, ne_eq, Option.some.injEq]
    exact append_ne_of_not_prefix _ _ _ (by decide)
  | none =>
  cases hsend : w.sendMessage (resolveDestination caseTable c).1 b
      (resolveCorrelationID w c) with
  | some e =>
    simp only [runPush, hva, hcs, h, hcl, hs, hfix, hsend, ne_eq, Option.some.injEq]
    exact append_ne_of_not_prefix _ _ _ (by decide)
  | none =>
    simp only [runPush, hva, hcs, h, hcl, hs, hfix, hsend, ne_eq]
    simp

/-- C10 at a payload file with an object in it. -/
theorem canonical_bytes_fixed_point_witness :
    (∃ v, jsonUnmarshal smallIntCodec "\x7b\"a\":[1,2],\"b\":null\x7d".data = some v ∧
        jsonMarshal smallIntCodec v = .ok "\x7b\"a\":[1,2],\"b\":null\x7d".data) ∧
      (runPush smallIntCodec id (worldWithPayload "\x7b\"b\":null,  \"a\": [1, 2]\x7d")
        ⟨"q1", "", "", "", "p.json", ""⟩).1 ≠ some "erro ao parsear JSON" :=
  ⟨(canonical_bytes_fixed_point smallIntCodec smallIntCodec_roundTrips
      (worldWithPayload "\x7b\"b\":null,  \"a\": [1, 2]\x7d") "p.json"
      "\x7b\"a\":[1,2],\"b\":null\x7d".data rfl).1,
    (canonical_bytes_fixed_point smallIntCodec smallIntCodec_roundTrips
      (worldWithPayload "\x7b\"b\":null,  \"a\": [1, 2]\x7d") "p.json"
      "\x7b\"a\":[1,2],\"b\":null\x7d".data rfl).2 id ⟨"q1", "", "", "", "p.json", ""⟩ rfl⟩

end Push
